import Mathlib

set_option maxHeartbeats 1000000
set_option maxRecDepth 100000

/-! Shallow embedding of the `spotify-filterer` playlist diff engine
(`src/app.py` and `src/clean_playlist.py`).

Python strings are modelled as `List Char`, Python exceptions as an explicit
`PyError`, the upstream Spotify collaborator as a record of oracle functions,
and the unbounded `while True` pagination loops as fuel-indexed recursions
(`none` means the loop did not reach an empty page within the given fuel,
i.e. the real loop is still running). -/

abbrev PyStr := List Char

inductive PyError where
  | typeError
  | indexError
  | httpError
deriving DecidableEq, Repr

/-- Bool test that `p` occurs as a leading block of `s`.  Building block for
the substring scan performed by Python's `in` operator and `str.split`. -/
def startsWith : PyStr → PyStr → Bool
  | [], _ => true
  | _ :: _, [] => false
  | p :: ps, c :: cs => p == c && startsWith ps cs

/-- Python's substring operator `sub in s`. -/
def pyIn (sub : PyStr) : PyStr → Bool
  | [] => sub.isEmpty
  | c :: cs => startsWith sub (c :: cs) || pyIn sub cs

/-- Locate the first occurrence of `sep` in `s`: returns the text before the
occurrence and the text after it. -/
def splitFirst (sep : PyStr) : PyStr → Option (PyStr × PyStr)
  | [] => none
  | c :: cs =>
    if startsWith sep (c :: cs) then some ([], (c :: cs).drop sep.length)
    else
      match splitFirst sep cs with
      | some (b, a) => some (c :: b, a)
      | none => none

/-- Fuel-indexed worker for Python's `str.split(sep)` (each recursive call
consumes a nonempty separator occurrence, so `s.length + 1` fuel always
suffices). -/
def pySplitAux (sep : PyStr) : Nat → PyStr → List PyStr
  | 0, s => [s]
  | fuel + 1, s =>
    match splitFirst sep s with
    | none => [s]
    | some (b, a) => b :: pySplitAux sep fuel a

/-- Python's `s.split(sep)` for a nonempty separator. -/
def pySplit (sep s : PyStr) : List PyStr := pySplitAux sep (s.length + 1) s

/-- Python list indexing `l[i]`: raises `IndexError` when out of range. -/
def pyIndex {α : Type} (l : List α) (i : Nat) : Except PyError α :=
  match l.get? i with
  | some x => .ok x
  | none => .error .indexError

def urlMarker : PyStr := "open.spotify.com/playlist/".toList
def segMarker : PyStr := "playlist/".toList
def uriMarker : PyStr := "spotify:playlist:".toList

/-- `get_playlist_id_from_link` from `src/app.py` (lines 258-266).
`if not link: return None`, then the URL branch
`link.split("playlist/")[1].split("?")[0]`, then the URI branch
`link.split("spotify:playlist:")[1]`, else `None`. -/
def get_playlist_id_from_link (link : PyStr) : Except PyError (Option PyStr) :=
  if link.isEmpty then .ok none
  else if pyIn urlMarker link then
    match pyIndex (pySplit segMarker link) 1 with
    | .error e => .error e
    | .ok part =>
      match pyIndex (pySplit ['?'] part) 0 with
      | .error e => .error e
      | .ok pid => .ok (some pid)
  else if pyIn uriMarker link then
    match pyIndex (pySplit uriMarker link) 1 with
    | .error e => .error e
    | .ok pid => .ok (some pid)
  else .ok none

/-- `get_playlist_id_from_link` from `src/clean_playlist.py` (lines 40-49):
identical except that it lacks the leading `if not link` guard. -/
def get_playlist_id_from_link_cli (link : PyStr) : Except PyError (Option PyStr) :=
  if pyIn urlMarker link then
    match pyIndex (pySplit segMarker link) 1 with
    | .error e => .error e
    | .ok part =>
      match pyIndex (pySplit ['?'] part) 0 with
      | .error e => .error e
      | .ok pid => .ok (some pid)
  else if pyIn uriMarker link then
    match pyIndex (pySplit uriMarker link) 1 with
    | .error e => .error e
    | .ok pid => .ok (some pid)
  else .ok none

/-! ## Data model: tracks, page payloads, the upstream collaborator -/

structure Track where
  id : Option PyStr
  name : PyStr
deriving DecidableEq, Repr

/-- One element of a page's `items` array: wraps a track that may be `null`. -/
structure Item where
  track : Option Track
deriving DecidableEq, Repr

/-- One page of a paginated response.  The loops in the source only ever read
`items`; `next` and `total` model the rest of the payload they ignore. -/
structure Page where
  items : List Item
  next : Option PyStr
  total : Nat
deriving DecidableEq, Repr

/-- The Spotify collaborator as seen by the engine: `current_user_saved_tracks`,
`playlist_items`, and `playlist(pid, fields='name')` (each of the latter two may
raise). Removal calls are recorded in the call trace instead. -/
structure Env where
  saved : Nat → Nat → Page
  playlistItems : PyStr → Nat → Nat → Page
  playlistName : PyStr → Except PyError PyStr

/-- Network calls issued to the collaborator, in order. -/
inductive ApiCall where
  | meta (pid : PyStr)
  | savedPage (limit offset : Nat)
  | itemsPage (pid : PyStr) (limit offset : Nat)
  | removeBatch (pid : PyStr) (ids : List PyStr)
deriving DecidableEq, Repr

/-! ## Pagination loops -/

/-- Run a per-item step over a page's items, propagating a raised exception
exactly as Python's `for item in results['items']` body does. -/
def foldE {σ α : Type} (step : σ → α → Except PyError σ) : σ → List α → Except PyError σ
  | acc, [] => .ok acc
  | acc, x :: xs =>
    match step acc x with
    | .error e => .error e
    | .ok acc' => foldE step acc' xs

/-- The common `while True` pagination loop shape of both source files:
fetch the page at `offset`; `if not results['items']: break`; process the
items; `offset += limit`.  Returns the final accumulator (or the first raised
exception) together with the list of offsets requested, or `none` if `fuel`
iterations did not reach an empty page. -/
def paginate {σ : Type} (fetch : Nat → Page) (limit : Nat)
    (step : σ → Item → Except PyError σ) : Nat → Nat → σ → Option (Except PyError σ × List Nat)
  | 0, _, _ => none
  | fuel + 1, offset, acc =>
    let pg := fetch offset
    if pg.items = [] then some (.ok acc, [offset])
    else
      match foldE step acc pg.items with
      | .error e => some (.error e, [offset])
      | .ok acc' =>
        match paginate fetch limit step fuel (offset + limit) acc' with
        | none => none
        | some (r, offs) => some (r, offset :: offs)

/-- Pure collection variant of `paginate`: just concatenates the fetched
pages, recording the offsets requested. -/
def pagCollect (fetch : Nat → Page) (limit : Nat) : Nat → Nat → Option (List Item × List Nat)
  | 0, _ => none
  | fuel + 1, offset =>
    let pg := fetch offset
    if pg.items = [] then some ([], [offset])
    else
      match pagCollect fetch limit fuel (offset + limit) with
      | none => none
      | some (its, offs) => some (pg.items ++ its, offset :: offs)

/-- Lift an exception-free loop body into `paginate`'s step type. -/
def liftE {σ : Type} (step : σ → Item → σ) : σ → Item → Except PyError σ :=
  fun acc it => .ok (step acc it)

/-! ## Loop bodies (per-item steps) -/

/-- Filter-set accumulation step of `run_filter` (src/app.py lines 178-180 and
193-195): `if item['track'] and item['track']['id']:
all_filter_song_ids.add(item['track']['id'])`.  A missing track, a `null` id
and an empty-string id (Python falsy) are all skipped. -/
def filterStep (acc : Finset PyStr) (it : Item) : Finset PyStr :=
  match it.track with
  | none => acc
  | some t =>
    match t.id with
    | none => acc
    | some tid => if tid = [] then acc else insert tid acc

/-- Matcher step of `run_filter` (src/app.py lines 211-218): skip a missing
track or falsy id, then on membership in the filter set append `{id, name}`. -/
def matchStep (fs : Finset PyStr) (acc : List (PyStr × PyStr)) (it : Item) :
    List (PyStr × PyStr) :=
  match it.track with
  | none => acc
  | some t =>
    match t.id with
    | none => acc
    | some tid =>
      if tid = [] then acc
      else if tid ∈ fs then acc ++ [(tid, t.name)] else acc

/-- The decision `matchStep` makes for a single item, as a partial function:
`some (id, name)` exactly when the item is appended to the match list. -/
def matchFn (fs : Finset PyStr) (it : Item) : Option (PyStr × PyStr) :=
  match it.track with
  | none => none
  | some t =>
    match t.id with
    | none => none
    | some tid =>
      if tid = [] then none
      else if tid ∈ fs then some (tid, t.name) else none

/-- Liked-songs accumulation step of `clean_playlist` (src/clean_playlist.py
line 66): `liked_songs_ids.add(item['track']['id'])` with no guard — a `null`
track raises `TypeError`, and a `null` id is inserted into the set. -/
def clpLikedStep (acc : Finset (Option PyStr)) (it : Item) :
    Except PyError (Finset (Option PyStr)) :=
  match it.track with
  | none => .error .typeError
  | some t => .ok (insert t.id acc)

/-- Matcher step of `clean_playlist` (src/clean_playlist.py lines 102-111):
same guard as the web matcher, collecting bare ids. -/
def clpMatchStep (liked : Finset (Option PyStr)) (acc : List PyStr) (it : Item) :
    List PyStr :=
  match it.track with
  | none => acc
  | some t =>
    match t.id with
    | none => acc
    | some tid =>
      if tid = [] then acc
      else if some tid ∈ liked then acc ++ [tid] else acc

/-! ## Remover: batching and removal calls -/

/-- The batch loop index `for i in range(0, len(ids), 100): batch = ids[i:i+100]`
(src/app.py lines 230-231, src/clean_playlist.py lines 125-126), fuel-indexed;
`ids.length` fuel covers every iteration since `i` grows by 100 each step. -/
def batchesAux (ids : List PyStr) : Nat → Nat → List (List PyStr)
  | 0, _ => []
  | fuel + 1, i =>
    if i < ids.length then ((ids.drop i).take 100) :: batchesAux ids fuel (i + 100)
    else []

/-- The consecutive batches of at most 100 identifiers submitted to
`playlist_remove_all_occurrences_of_items`, in order. -/
def removeBatches (ids : List PyStr) : List (List PyStr) :=
  batchesAux ids ids.length 0

/-- The character-wise HTML escaping of src/app.py lines 239-244
(`&` → `&amp;`, then `<` → `&lt;`, then `>` → `&gt;`; the later replacements
never see text introduced by the earlier ones, so it is per-character). -/
def escChar (c : Char) : PyStr :=
  if c = '&' then "&amp;".toList
  else if c = '<' then "&lt;".toList
  else if c = '>' then "&gt;".toList
  else [c]

def escapeHtml (s : PyStr) : PyStr := (s.map escChar).flatten

/-- Outcome of the web endpoint `run_filter`, abstracted from its HTTP/HTML
encoding: 401, 400 for a bad link, 500 for an uncaught exception, the
"No songs to remove" success message, or the success report (count, target
playlist name, ordered escaped removed-track names). -/
inductive RunResult where
  | authError
  | invalidLink
  | serverError (e : PyError)
  | noSongs (playlistName : PyStr)
  | success (count : Nat) (playlistName : PyStr) (escapedNames : List PyStr)
deriving DecidableEq, Repr

/-- Remover stage of `run_filter` (src/app.py lines 221-249): empty match list
reports "no songs to remove" with no calls; otherwise extract the ids, issue
one removal call per batch in order, and report count and escaped names. -/
def remover (pid pname : PyStr) (tracks : List (PyStr × PyStr)) :
    RunResult × List ApiCall :=
  if tracks = [] then (.noSongs pname, [])
  else
    let ids := tracks.map Prod.fst
    (.success tracks.length pname (tracks.map fun t => escapeHtml t.2),
     (removeBatches ids).map fun b => .removeBatch pid b)

/-! ## The web pipeline `run_filter` (src/app.py lines 144-253) -/

def likedSentinel : PyStr := "liked_songs".toList

/-- The `for filter_pid in filter_playlist_ids` loop (src/app.py lines
183-196): skip the sentinel, resolve the playlist's display name (an
exception here propagates to the outer handler), then page through the
playlist accumulating ids. -/
def collectFilters (env : Env) (fuel : Nat) :
    List PyStr → Finset PyStr → Option (Except PyError (Finset PyStr) × List ApiCall)
  | [], acc => some (.ok acc, [])
  | pid :: rest, acc =>
    if pid = likedSentinel then collectFilters env fuel rest acc
    else
      match env.playlistName pid with
      | .error e => some (.error e, [.meta pid])
      | .ok _ =>
        match paginate (fun o => env.playlistItems pid 100 o) 100 (liftE filterStep) fuel 0 acc with
        | none => none
        | some (.error e, offs) =>
          some (.error e, .meta pid :: offs.map fun o => .itemsPage pid 100 o)
        | some (.ok acc', offs) =>
          match collectFilters env fuel rest acc' with
          | none => none
          | some (r, tr) =>
            some (r, (ApiCall.meta pid :: offs.map fun o => ApiCall.itemsPage pid 100 o) ++ tr)

/-- Liked-songs collection of `run_filter` (src/app.py lines 171-181):
only performed when the "include liked songs" box is checked; pages through
`current_user_saved_tracks` at size 50 accumulating guarded ids. -/
def likedCollect (env : Env) (includeLiked : Bool) (fuel : Nat) :
    Option (Except PyError (Finset PyStr) × List ApiCall) :=
  if includeLiked then
    match paginate (fun o => env.saved 50 o) 50 (liftE filterStep) fuel 0 ∅ with
    | none => none
    | some (r, offs) => some (r, offs.map fun o => .savedPage 50 o)
  else some (.ok ∅, [])

/-- `run_filter` (src/app.py lines 144-253): authenticate, resolve the target
link, look up the target's name, build the filter set (liked songs at page
size 50, then each filter playlist at page size 100), match against the
target (page size 100), then remove in batches.  Any raised exception is
caught by the outer handler and returned as a 500.  Returns the result and
the ordered collaborator call trace, or `none` if a pagination loop did not
finish within `fuel`. -/
def run_filter (env : Env) (authed : Bool) (targetLink : PyStr) (filterIds : List PyStr)
    (includeLiked : Bool) (fuel : Nat) : Option (RunResult × List ApiCall) :=
  if !authed then some (.authError, [])
  else
    match get_playlist_id_from_link targetLink with
    | .error e => some (.serverError e, [])
    | .ok none => some (.invalidLink, [])
    | .ok (some pid) =>
      match env.playlistName pid with
      | .error e => some (.serverError e, [.meta pid])
      | .ok pname =>
        match likedCollect env includeLiked fuel with
        | none => none
        | some (.error e, tr1) => some (.serverError e, .meta pid :: tr1)
        | some (.ok fs1, tr1) =>
          match collectFilters env fuel filterIds fs1 with
          | none => none
          | some (.error e, tr2) => some (.serverError e, .meta pid :: tr1 ++ tr2)
          | some (.ok fs, tr2) =>
            match paginate (fun o => env.playlistItems pid 100 o) 100
                (liftE (matchStep fs)) fuel 0 [] with
            | none => none
            | some (.error e, offs) =>
              some (.serverError e,
                .meta pid :: tr1 ++ tr2 ++ offs.map fun o => .itemsPage pid 100 o)
            | some (.ok tracks, offs) =>
              let tr3 := offs.map fun o => ApiCall.itemsPage pid 100 o
              let rm := remover pid pname tracks
              some (rm.1, .meta pid :: tr1 ++ tr2 ++ tr3 ++ rm.2)

/-! ## The CLI pipeline `clean_playlist` (src/clean_playlist.py lines 52-130) -/

/-- Outcome of the CLI script: an uncaught exception, the invalid-link
message, the could-not-find-playlist message, the "no liked songs found"
message, or the success report. -/
inductive CleanResult where
  | exn (e : PyError)
  | invalidLinkMsg
  | notFoundMsg
  | noLiked (playlistName : PyStr)
  | removed (count : Nat) (playlistName : PyStr)
deriving DecidableEq, Repr

/-- `clean_playlist`: pages through liked songs FIRST (with the unguarded
accumulation step), only then reads and resolves the target link, looks up
the target's name (failure caught and reported), matches, and removes in
batches. -/
def clean_playlist (env : Env) (link : PyStr) (fuel : Nat) :
    Option (CleanResult × List ApiCall) :=
  match paginate (fun o => env.saved 50 o) 50 clpLikedStep fuel 0 ∅ with
  | none => none
  | some (.error e, offs) => some (.exn e, offs.map fun o => .savedPage 50 o)
  | some (.ok liked, offs) =>
    let tr1 := offs.map fun o => ApiCall.savedPage 50 o
    match get_playlist_id_from_link_cli link with
    | .error e => some (.exn e, tr1)
    | .ok none => some (.invalidLinkMsg, tr1)
    | .ok (some pid) =>
      match env.playlistName pid with
      | .error _ => some (.notFoundMsg, tr1 ++ [.meta pid])
      | .ok pname =>
        match paginate (fun o => env.playlistItems pid 100 o) 100
            (liftE (clpMatchStep liked)) fuel 0 [] with
        | none => none
        | some (.error e, offs2) =>
          some (.exn e, tr1 ++ [.meta pid] ++ offs2.map fun o => .itemsPage pid 100 o)
        | some (.ok ids, offs2) =>
          let tr2 := tr1 ++ [.meta pid] ++ offs2.map fun o => ApiCall.itemsPage pid 100 o
          if ids = [] then some (.noLiked pname, tr2)
          else
            some (.removed ids.length pname,
              tr2 ++ (removeBatches ids).map fun b => .removeBatch pid b)

/-! ## Upstream removal semantics and concrete playlist stores -/

/-- The collaborator's `remove_all_occurrences` semantics: delete every item
of the playlist whose track identifier is listed (items lacking an identifier
are untouched). -/
def removeAll (l : List Item) (ids : List PyStr) : List Item :=
  l.filter fun it =>
    match it.track with
    | none => true
    | some t =>
      match t.id with
      | none => true
      | some tid => !decide (tid ∈ ids)

/-- Apply a sequence of removal batches to a playlist, in order. -/
def applyBatches (l : List Item) (bs : List (List PyStr)) : List Item :=
  bs.foldl removeAll l

/-- Replay the `removeBatch` calls of a trace addressed to playlist `tp`
against its item list, in trace order. -/
def applyCalls (tp : PyStr) (l : List Item) : List ApiCall → List Item
  | [] => l
  | .removeBatch pid ids :: rest =>
    applyCalls tp (if pid = tp then removeAll l ids else l) rest
  | _ :: rest => applyCalls tp l rest

/-- A faithful upstream pager over a concrete item list: page of size `limit`
at `offset`. -/
def slicePage (l : List Item) (limit offset : Nat) : Page :=
  { items := (l.drop offset).take limit, next := none, total := l.length }

/-- Rebind one playlist id of the collaborator to a concrete item list. -/
def setTargetItems (env : Env) (tp : PyStr) (l : List Item) : Env :=
  { env with
    playlistItems := fun pid limit offset =>
      if pid = tp then slicePage l limit offset else env.playlistItems pid limit offset }

/-! ## Concrete fixtures used to instantiate the theorems below -/

def trA : Item := ⟨some ⟨some "a".toList, "Alpha".toList⟩⟩
def trB : Item := ⟨some ⟨some "b".toList, "Beta".toList⟩⟩
def trC : Item := ⟨some ⟨some "c".toList, "Gamma".toList⟩⟩

def targetABC : List Item := [trA, trB, trC]

/-- Collaborator with an empty library, a target playlist `tp` holding tracks
A, B, C, and one filter playlist `fp` holding track B. -/
def envT : Env :=
  { saved := fun limit offset => slicePage [] limit offset
    playlistItems := fun pid limit offset =>
      if pid = "tp".toList then slicePage targetABC limit offset
      else if pid = "fp".toList then slicePage [trB] limit offset
      else slicePage [] limit offset
    playlistName := fun pid =>
      if pid = "tp".toList then .ok "Target".toList else .ok "Filt".toList }

/-- Same collaborator, but the metadata lookup fails for every playlist
except the target `tp`. -/
def envMetaFail : Env :=
  { envT with
    playlistName := fun pid =>
      if pid = "tp".toList then .ok "Target".toList else .error .httpError }

/-- Collaborator whose liked-songs library holds one track (so paging it takes
two calls: one non-empty page, one empty page). -/
def envLiked1 : Env :=
  { envT with saved := fun limit offset => slicePage [trA] limit offset }

/-- Collaborator whose liked-songs pages always contain an item with a `null`
track (a local file). -/
def envNullTrack : Env :=
  { envT with saved := fun _ _ => { items := [⟨none⟩], next := none, total := 1 } }

/-- Collaborator whose liked-songs library holds one track whose identifier is
`null`. -/
def envNullId : Env :=
  { envT with
    saved := fun limit offset =>
      slicePage [⟨some ⟨none, "Local".toList⟩⟩] limit offset }

/-- 250 matched identifiers, for the batch-size scenario. -/
def tracks250 : List (PyStr × PyStr) := List.replicate 250 ("i".toList, "n".toList)

/-- Pager that returns one short (but non-empty) page and then an empty one. -/
def fetchShort : Nat → Page :=
  fun o => if o = 0 then ⟨[trA], none, 5⟩ else ⟨[], none, 5⟩

/-- Short-paging upstream over the ground-truth list A, B, C: every page holds
at most one item even when a larger page size is requested. -/
def fetchStride : Nat → Page :=
  fun o => ⟨(targetABC.drop o).take 1, none, 3⟩

/-- Loop body that just collects the items it sees, in order. -/
def snocItem (acc : List Item) (it : Item) : List Item := acc ++ [it]

/-! ## Lemmas about the Python string primitives -/

theorem startsWith_iff {p s : PyStr} : startsWith p s = true ↔ ∃ t, s = p ++ t := by
  induction p generalizing s with
  | nil => simp [startsWith]
  | cons a ps ih =>
    cases s with
    | nil => simp [startsWith]
    | cons c cs =>
      simp only [startsWith, Bool.and_eq_true, beq_iff_eq, ih, List.cons_append]
      constructor
      · rintro ⟨rfl, t, rfl⟩; exact ⟨t, rfl⟩
      · rintro ⟨t, h⟩
        injection h with h1 h2
        exact ⟨h1.symm, t, h2⟩

theorem pyIn_eq_true_iff {sub s : PyStr} : pyIn sub s = true ↔ ∃ x y, s = x ++ sub ++ y := by
  induction s with
  | nil =>
    simp only [pyIn, List.isEmpty_iff]
    constructor
    · rintro rfl; exact ⟨[], [], rfl⟩
    · rintro ⟨x, y, h⟩
      rcases (List.append_eq_nil.mp h.symm) with ⟨h1, h2⟩
      exact (List.append_eq_nil.mp h1).2
  | cons c cs ih =>
    simp only [pyIn, Bool.or_eq_true, startsWith_iff, ih]
    constructor
    · rintro (⟨t, ht⟩ | ⟨x, y, rfl⟩)
      · exact ⟨[], t, by simpa using ht⟩
      · exact ⟨c :: x, y, by simp⟩
    · rintro ⟨x, y, h⟩
      cases x with
      | nil => exact Or.inl ⟨y, by simpa using h⟩
      | cons a x' =>
        simp only [List.cons_append, List.append_assoc] at h
        injection h with h1 h2
        exact Or.inr ⟨x', y, by simpa [List.append_assoc] using h2⟩

theorem splitFirst_cons_pos {sep cs : PyStr} {c : Char}
    (h : startsWith sep (c :: cs) = true) :
    splitFirst sep (c :: cs) = some ([], (c :: cs).drop sep.length) := by
  simp only [splitFirst]
  rw [h]
  simp

theorem splitFirst_cons_neg {sep cs : PyStr} {c : Char}
    (h : startsWith sep (c :: cs) = false) :
    splitFirst sep (c :: cs) = (splitFirst sep cs).map fun ba => (c :: ba.1, ba.2) := by
  simp only [splitFirst]
  rw [h]
  simp only [Bool.false_eq_true, if_false]
  cases splitFirst sep cs with
  | none => rfl
  | some ba => cases ba; rfl

theorem splitFirst_some_of_pyIn {sep s : PyStr} (hsep : sep ≠ []) (h : pyIn sep s = true) :
    ∃ ba, splitFirst sep s = some ba := by
  induction s with
  | nil =>
    simp only [pyIn, List.isEmpty_iff] at h
    exact absurd h hsep
  | cons c cs ih =>
    simp only [pyIn, Bool.or_eq_true] at h
    cases hp : startsWith sep (c :: cs) with
    | true => exact ⟨_, splitFirst_cons_pos hp⟩
    | false =>
      have h2 : pyIn sep cs = true := by
        rcases h with h | h
        · rw [hp] at h; cases h
        · exact h
      obtain ⟨ba, hba⟩ := ih h2
      refine ⟨(c :: ba.1, ba.2), ?_⟩
      rw [splitFirst_cons_neg hp, hba]
      rfl

theorem pyIn_of_splitFirst_some {sep s : PyStr} {ba : PyStr × PyStr}
    (h : splitFirst sep s = some ba) : pyIn sep s = true := by
  induction s generalizing ba with
  | nil => simp [splitFirst] at h
  | cons c cs ih =>
    cases hp : startsWith sep (c :: cs) with
    | true => simp [pyIn, hp]
    | false =>
      rw [splitFirst_cons_neg hp] at h
      cases hsf : splitFirst sep cs with
      | none => rw [hsf] at h; simp at h
      | some ba' => simp [pyIn, ih hsf]

theorem splitFirst_eq_none {sep s : PyStr} (h : pyIn sep s = false) :
    splitFirst sep s = none := by
  cases hsf : splitFirst sep s with
  | none => rfl
  | some ba => rw [pyIn_of_splitFirst_some hsf] at h; cases h

theorem startsWith_append_self (p t : PyStr) : startsWith p (p ++ t) = true :=
  startsWith_iff.mpr ⟨t, rfl⟩

theorem startsWith_append_cases {sep u t : PyStr} (h : startsWith sep (u ++ t) = true) :
    startsWith sep u = true ∨ startsWith u sep = true := by
  obtain ⟨r, hr⟩ := startsWith_iff.mp h
  by_cases hl : sep.length ≤ u.length
  · left
    have h2 : (u ++ t).take sep.length = (sep ++ r).take sep.length := by rw [hr]
    rw [List.take_append_eq_append_take, Nat.sub_eq_zero_of_le hl, List.take_zero,
      List.append_nil, List.take_left] at h2
    refine startsWith_iff.mpr ⟨u.drop sep.length, ?_⟩
    conv_lhs => rw [← List.take_append_drop sep.length u]
    rw [h2]
  · right
    push_neg at hl
    have h2 : (u ++ t).take u.length = (sep ++ r).take u.length := by rw [hr]
    rw [List.take_left, List.take_append_eq_append_take,
      Nat.sub_eq_zero_of_le (le_of_lt hl), List.take_zero, List.append_nil] at h2
    refine startsWith_iff.mpr ⟨sep.drop u.length, ?_⟩
    conv_lhs => rw [← List.take_append_drop u.length sep]
    rw [← h2]

theorem splitFirst_sep_start {sep r : PyStr} (hsep : sep ≠ []) :
    splitFirst sep (sep ++ r) = some ([], r) := by
  cases sep with
  | nil => exact absurd rfl hsep
  | cons a ps =>
    have hsw : startsWith (a :: ps) (a :: (ps ++ r)) = true := by
      simpa using startsWith_append_self (a :: ps) r
    have e : (a :: ps) ++ r = a :: (ps ++ r) := rfl
    rw [e, splitFirst_cons_pos hsw]
    have hdrop : (a :: (ps ++ r)).drop (a :: ps).length = r :=
      List.drop_left (a :: ps) r
    rw [hdrop]

theorem splitFirst_append_left {sep : PyStr} (A t : PyStr)
    (h : ∀ p, p < A.length → startsWith sep (A.drop p ++ t) = false) :
    splitFirst sep (A ++ t) = (splitFirst sep t).map fun ba => (A ++ ba.1, ba.2) := by
  induction A with
  | nil =>
    simp only [List.nil_append]
    cases splitFirst sep t with
    | none => rfl
    | some ba => simp
  | cons c A' ih =>
    have h0 : startsWith sep (c :: (A' ++ t)) = false := by
      simpa using h 0 (by simp)
    have hrest : ∀ p, p < A'.length → startsWith sep (A'.drop p ++ t) = false := by
      intro p hp
      have := h (p + 1) (by simpa using Nat.succ_lt_succ hp)
      simpa [List.drop_succ_cons] using this
    have e : (c :: A') ++ t = c :: (A' ++ t) := rfl
    rw [e, splitFirst_cons_neg h0, ih hrest]
    cases splitFirst sep t with
    | none => rfl
    | some ba => cases ba; simp

theorem startsWith_drop_append_false {sep A : PyStr} (t : PyStr)
    (h : ∀ p, p < A.length →
      startsWith sep (A.drop p) = false ∧ startsWith (A.drop p) sep = false) :
    ∀ p, p < A.length → startsWith sep (A.drop p ++ t) = false := by
  intro p hp
  cases hb : startsWith sep (A.drop p ++ t) with
  | false => rfl
  | true =>
    rcases startsWith_append_cases hb with h1 | h1
    · rw [(h p hp).1] at h1; cases h1
    · rw [(h p hp).2] at h1; cases h1

theorem pySplitAux_of_none {sep s : PyStr} (h : splitFirst sep s = none) :
    ∀ fuel, pySplitAux sep fuel s = [s] := by
  intro fuel
  cases fuel with
  | zero => rfl
  | succ f => simp [pySplitAux, h]

theorem pySplitAux_ne_nil {sep s : PyStr} {fuel : Nat} : pySplitAux sep fuel s ≠ [] := by
  cases fuel with
  | zero => simp [pySplitAux]
  | succ f =>
    unfold pySplitAux
    cases splitFirst sep s with
    | none => simp
    | some ba => simp

theorem pySplit_ne_nil {sep s : PyStr} : pySplit sep s ≠ [] := pySplitAux_ne_nil

theorem pySplit_of_splitFirst {sep s b a : PyStr} (h : splitFirst sep s = some (b, a)) :
    pySplit sep s = b :: pySplitAux sep s.length a := by
  simp [pySplit, pySplitAux, h]

theorem pySplit_length_two {sep s : PyStr} (hsep : sep ≠ []) (h : pyIn sep s = true) :
    2 ≤ (pySplit sep s).length := by
  obtain ⟨⟨b, a⟩, hsf⟩ := splitFirst_some_of_pyIn hsep h
  rw [pySplit_of_splitFirst hsf]
  have hne := @pySplitAux_ne_nil sep a s.length
  have := List.length_pos_of_ne_nil hne
  simp only [List.length_cons]
  omega

theorem splitFirst_single_none {c : Char} {x : PyStr} (h : c ∉ x) :
    splitFirst [c] x = none := by
  induction x with
  | nil => rfl
  | cons a x' ih =>
    have hca : c ≠ a := fun h' => h (by simp [h'])
    have hsw : startsWith [c] (a :: x') = false := by simp [startsWith, hca]
    rw [splitFirst_cons_neg hsw, ih (fun h' => h (List.mem_cons_of_mem _ h'))]
    rfl

theorem splitFirst_single_mem {c : Char} {x : PyStr} (y : PyStr) (h : c ∉ x) :
    splitFirst [c] (x ++ c :: y) = some (x, y) := by
  induction x with
  | nil =>
    have hsw : startsWith [c] (c :: y) = true := by simp [startsWith]
    rw [List.nil_append, splitFirst_cons_pos hsw]
    simp
  | cons a x' ih =>
    have hca : c ≠ a := fun h' => h (by simp [h'])
    have hsw : startsWith [c] (a :: (x' ++ c :: y)) = false := by simp [startsWith, hca]
    have e : (a :: x') ++ c :: y = a :: (x' ++ c :: y) := rfl
    rw [e, splitFirst_cons_neg hsw, ih (fun h' => h (List.mem_cons_of_mem _ h'))]
    rfl

theorem urlMarker_decomp : urlMarker = "open.spotify.com/".toList ++ segMarker := by decide

theorem pyIn_seg_of_url {link : PyStr} (h : pyIn urlMarker link = true) :
    pyIn segMarker link = true := by
  obtain ⟨x, y, rfl⟩ := pyIn_eq_true_iff.mp h
  exact pyIn_eq_true_iff.mpr
    ⟨x ++ "open.spotify.com/".toList, y, by rw [urlMarker_decomp]; simp [List.append_assoc]⟩

/-! ## Branch lemmas for the source-link resolver -/

theorem resolver_total (link : PyStr) : ∃ r, get_playlist_id_from_link link = .ok r := by
  by_cases he : link.isEmpty = true
  · exact ⟨none, by simp [get_playlist_id_from_link, he]⟩
  · rw [Bool.not_eq_true] at he
    cases h1 : pyIn urlMarker link with
    | true =>
      have h2 : pyIn segMarker link = true := pyIn_seg_of_url h1
      have hlen := pySplit_length_two (by decide : segMarker ≠ []) h2
      cases hg : (pySplit segMarker link).get? 1 with
      | none => rw [List.get?_eq_none] at hg; omega
      | some part =>
        have hne0 : pySplit ['?'] part ≠ [] := pySplit_ne_nil
        cases hg0 : (pySplit ['?'] part).get? 0 with
        | none =>
          rw [List.get?_eq_none] at hg0
          have := List.length_pos_of_ne_nil hne0
          omega
        | some pid =>
          rw [List.get?_eq_getElem?] at hg hg0
          exact ⟨some pid, by simp [get_playlist_id_from_link, he, h1, pyIndex, hg, hg0]⟩
    | false =>
      cases h3 : pyIn uriMarker link with
      | true =>
        have hlen := pySplit_length_two (by decide : uriMarker ≠ []) h3
        cases hg : (pySplit uriMarker link).get? 1 with
        | none => rw [List.get?_eq_none] at hg; omega
        | some pid =>
          rw [List.get?_eq_getElem?] at hg
          exact ⟨some pid, by simp [get_playlist_id_from_link, he, h1, h3, pyIndex, hg]⟩
      | false => exact ⟨none, by simp [get_playlist_id_from_link, he, h1, h3]⟩

theorem resolver_url (pre id q : PyStr)
    (hA : ∀ p, p < (pre ++ "open.spotify.com/".toList).length →
      startsWith segMarker ((pre ++ "open.spotify.com/".toList).drop p) = false ∧
      startsWith ((pre ++ "open.spotify.com/".toList).drop p) segMarker = false)
    (hiq : pyIn segMarker (id ++ q) = false)
    (hqm : '?' ∉ id)
    (hq : q = [] ∨ q.head? = some '?') :
    get_playlist_id_from_link (pre ++ urlMarker ++ id ++ q) = .ok (some id) := by
  have hsegne : segMarker ≠ [] := by decide
  set A := pre ++ "open.spotify.com/".toList with hAdef
  set link := pre ++ urlMarker ++ id ++ q with hlinkdef
  have hassoc : link = A ++ (segMarker ++ (id ++ q)) := by
    rw [hlinkdef, hAdef, urlMarker_decomp]
    simp [List.append_assoc]
  have hsf : splitFirst segMarker link = some (A, id ++ q) := by
    rw [hassoc, splitFirst_append_left A _ (startsWith_drop_append_false _ hA),
      splitFirst_sep_start hsegne]
    simp
  have hnone : splitFirst segMarker (id ++ q) = none := splitFirst_eq_none hiq
  have hps : pySplit segMarker link = [A, id ++ q] := by
    rw [pySplit_of_splitFirst hsf, pySplitAux_of_none hnone]
  have hne : link ≠ [] := by
    rw [hassoc]
    intro hcontr
    have h1 := (List.append_eq_nil.mp hcontr).2
    exact hsegne (List.append_eq_nil.mp h1).1
  have hemp : link.isEmpty = false := by
    cases hl : link.isEmpty with
    | false => rfl
    | true => exact absurd (List.isEmpty_iff.mp hl) hne
  have hinurl : pyIn urlMarker link = true := by
    refine pyIn_eq_true_iff.mpr ⟨pre, id ++ q, ?_⟩
    rw [hlinkdef]
    simp [List.append_assoc]
  have hq0 : (pySplit ['?'] (id ++ q)).get? 0 = some id := by
    rcases hq with rfl | hq
    · rw [List.append_nil, pySplit, pySplitAux_of_none (splitFirst_single_none hqm)]
      rfl
    · cases q with
      | nil => simp at hq
      | cons c q' =>
        have hc : c = '?' := by simpa using hq
        subst hc
        rw [pySplit_of_splitFirst (splitFirst_single_mem q' hqm)]
        rfl
  rw [List.get?_eq_getElem?] at hq0
  simp [get_playlist_id_from_link, hemp, hinurl, pyIndex, hps, hq0]

theorem resolver_uri (id : PyStr)
    (hurl : pyIn urlMarker (uriMarker ++ id) = false)
    (hid : pyIn uriMarker id = false) :
    get_playlist_id_from_link (uriMarker ++ id) = .ok (some id) := by
  have hne : uriMarker ++ id ≠ [] := by
    intro h
    exact absurd (List.append_eq_nil.mp h).1 (by decide)
  have hemp : (uriMarker ++ id).isEmpty = false := by
    cases hl : (uriMarker ++ id).isEmpty with
    | false => rfl
    | true => exact absurd (List.isEmpty_iff.mp hl) hne
  have hin : pyIn uriMarker (uriMarker ++ id) = true :=
    pyIn_eq_true_iff.mpr ⟨[], id, by simp⟩
  have hsf : splitFirst uriMarker (uriMarker ++ id) = some ([], id) :=
    splitFirst_sep_start (by decide)
  have hps : pySplit uriMarker (uriMarker ++ id) = [[], id] := by
    rw [pySplit_of_splitFirst hsf, pySplitAux_of_none (splitFirst_eq_none hid)]
  simp [get_playlist_id_from_link, hemp, hurl, hin, pyIndex, hps]

theorem resolver_other (link : PyStr) (hu : pyIn urlMarker link = false)
    (hv : pyIn uriMarker link = false) : get_playlist_id_from_link link = .ok none := by
  by_cases he : link.isEmpty = true
  · simp [get_playlist_id_from_link, he]
  · rw [Bool.not_eq_true] at he
    simp [get_playlist_id_from_link, he, hu, hv]

theorem resolver_cli_eq (link : PyStr) :
    get_playlist_id_from_link_cli link = get_playlist_id_from_link link := by
  by_cases he : link.isEmpty = true
  · have : link = [] := List.isEmpty_iff.mp he
    subst this
    rfl
  · rw [Bool.not_eq_true] at he
    simp [get_playlist_id_from_link, get_playlist_id_from_link_cli, he]

/-- C5: for every input string the source-link resolver works purely lexically
and never throws: a web URL containing the `playlist/<id>` segment yields the
text after `playlist/` truncated at the first `?`; a `<scheme>:playlist:<id>`
URI yields the `<id>` suffix; any other input (empty, malformed, unrecognized
scheme) yields `None`.  The fifth conjunct shows the CLI copy of the function
agrees with the web copy on every string. -/
theorem c5_resolver_lexical :
    (∀ link : PyStr, ∃ r, get_playlist_id_from_link link = .ok r) ∧
    (∀ pre id q : PyStr,
      (∀ p, p < (pre ++ "open.spotify.com/".toList).length →
        startsWith segMarker ((pre ++ "open.spotify.com/".toList).drop p) = false ∧
        startsWith ((pre ++ "open.spotify.com/".toList).drop p) segMarker = false) →
      pyIn segMarker (id ++ q) = false →
      '?' ∉ id →
      (q = [] ∨ q.head? = some '?') →
      get_playlist_id_from_link (pre ++ urlMarker ++ id ++ q) = .ok (some id)) ∧
    (∀ id : PyStr,
      pyIn urlMarker (uriMarker ++ id) = false →
      pyIn uriMarker id = false →
      get_playlist_id_from_link (uriMarker ++ id) = .ok (some id)) ∧
    (∀ link : PyStr, pyIn urlMarker link = false → pyIn uriMarker link = false →
      get_playlist_id_from_link link = .ok none) ∧
    (∀ link : PyStr, get_playlist_id_from_link_cli link = get_playlist_id_from_link link) :=
  ⟨resolver_total, resolver_url, resolver_uri, resolver_other, resolver_cli_eq⟩

/-- Witness for C5 at concrete links: a full web URL with a query string, a
URI, and a random string. -/
theorem c5_resolver_lexical_witness :
    get_playlist_id_from_link
        ("https://".toList ++ urlMarker ++ "37iAbC".toList ++ "?si=x".toList)
      = .ok (some "37iAbC".toList) ∧
    get_playlist_id_from_link (uriMarker ++ "37iAbC".toList) = .ok (some "37iAbC".toList) ∧
    get_playlist_id_from_link "a random string".toList = .ok none ∧
    (∃ r, get_playlist_id_from_link "open.spotify.com/playlist".toList = .ok r) ∧
    get_playlist_id_from_link_cli "x".toList = get_playlist_id_from_link "x".toList :=
  ⟨c5_resolver_lexical.2.1 "https://".toList "37iAbC".toList "?si=x".toList
      (by decide) (by decide) (by decide) (Or.inr rfl),
   c5_resolver_lexical.2.2.1 "37iAbC".toList (by decide) (by decide),
   c5_resolver_lexical.2.2.2.1 "a random string".toList (by decide) (by decide),
   c5_resolver_lexical.1 "open.spotify.com/playlist".toList,
   c5_resolver_lexical.2.2.2.2 "x".toList⟩

/-! ## Pagination lemmas -/

theorem paginate_empty_stop {σ : Type} (fetch : Nat → Page) (limit : Nat)
    (step : σ → Item → Except PyError σ) (fuel offset : Nat) (acc : σ)
    (h : (fetch offset).items = []) :
    paginate fetch limit step (fuel + 1) offset acc = some (.ok acc, [offset]) := by
  simp [paginate, h]

theorem foldE_liftE {σ : Type} (step : σ → Item → σ) (acc : σ) (l : List Item) :
    foldE (liftE step) acc l = .ok (l.foldl step acc) := by
  induction l generalizing acc with
  | nil => rfl
  | cons x xs ih => simp [foldE, liftE, ih, List.foldl_cons]

theorem paginate_continue {σ : Type} (fetch : Nat → Page) (limit : Nat)
    (step : σ → Item → σ) (fuel offset : Nat) (acc : σ)
    (hne : (fetch offset).items ≠ [])
    (hemp : (fetch (offset + limit)).items = []) :
    paginate fetch limit (liftE step) (fuel + 2) offset acc =
      some (.ok ((fetch offset).items.foldl step acc), [offset, offset + limit]) := by
  simp [paginate, hne, foldE_liftE, hemp]

theorem paginate_items_only {σ : Type} (fetch fetch' : Nat → Page) (limit : Nat)
    (step : σ → Item → Except PyError σ)
    (hsame : ∀ o, (fetch o).items = (fetch' o).items) :
    ∀ fuel offset acc,
      paginate fetch limit step fuel offset acc = paginate fetch' limit step fuel offset acc := by
  intro fuel
  induction fuel with
  | zero => intro o acc; rfl
  | succ f ih =>
    intro o acc
    simp only [paginate, hsame o, ih]

theorem paginate_terminates {σ : Type} (fetch : Nat → Page) (limit : Nat)
    (step : σ → Item → Except PyError σ) :
    ∀ k fuel offset acc, (fetch (offset + limit * k)).items = [] → k < fuel →
      ∃ r, paginate fetch limit step fuel offset acc = some r := by
  intro k
  induction k with
  | zero =>
    intro fuel offset acc h hk
    cases fuel with
    | zero => omega
    | succ f => exact ⟨_, paginate_empty_stop _ _ _ _ _ _ (by simpa using h)⟩
  | succ k ih =>
    intro fuel offset acc h hk
    cases fuel with
    | zero => omega
    | succ f =>
      by_cases h0 : (fetch offset).items = []
      · exact ⟨_, paginate_empty_stop _ _ _ _ _ _ h0⟩
      · cases hf : foldE step acc (fetch offset).items with
        | error e => exact ⟨(.error e, [offset]), by simp [paginate, h0, hf]⟩
        | ok acc' =>
          have hsh : (fetch (offset + limit + limit * k)).items = [] := by
            have e : offset + limit + limit * k = offset + limit * (k + 1) := by ring
            rw [e]
            exact h
          obtain ⟨⟨r1, r2⟩, hr⟩ := ih f (offset + limit) acc' hsh (by omega)
          exact ⟨(r1, offset :: r2), by simp [paginate, h0, hf, hr]⟩

theorem paginate_offsets {σ : Type} (fetch : Nat → Page) (limit : Nat)
    (step : σ → Item → Except PyError σ) :
    ∀ fuel offset acc r offs, paginate fetch limit step fuel offset acc = some (r, offs) →
      ∀ i (hi : i < offs.length), offs.get ⟨i, hi⟩ = offset + limit * i := by
  intro fuel
  induction fuel with
  | zero =>
    intro o acc r offs h
    simp [paginate] at h
  | succ f ih =>
    intro o acc r offs h i hi
    simp only [paginate] at h
    by_cases h0 : (fetch o).items = []
    · rw [if_pos h0] at h
      have h2 : [o] = offs := congrArg Prod.snd (Option.some.inj h)
      subst h2
      have hz : i = 0 := by simpa using hi
      subst hz
      simp
    · rw [if_neg h0] at h
      cases hf : foldE step acc (fetch o).items with
      | error e =>
        simp only [hf] at h
        have h2 : [o] = offs := congrArg Prod.snd (Option.some.inj h)
        subst h2
        have hz : i = 0 := by simpa using hi
        subst hz
        simp
      | ok acc' =>
        simp only [hf] at h
        cases hp : paginate fetch limit step f (o + limit) acc' with
        | none => simp [hp] at h
        | some ro =>
          obtain ⟨r', offs'⟩ := ro
          simp only [hp] at h
          have h2 : o :: offs' = offs := congrArg Prod.snd (Option.some.inj h)
          subst h2
          cases i with
          | zero => simp
          | succ j =>
            have hj : j < offs'.length := by simpa using hi
            have hrec := ih (o + limit) acc' r' offs' hp j hj
            rw [List.get_cons_succ, hrec]
            ring

/-- C3: every pagination loop in both source files is an instance of
`paginate`; it stops exactly on an empty page.  Conjuncts: (1) an empty page
always stops the loop, returning the accumulator; (2) a non-empty page shorter
than the page size does not stop collection — the loop issues the next request
at `offset + limit`; (3) the loop's outcome depends only on each page's
`items`, never on the reported `total` or `next` fields; (4) the loop
terminates as soon as any fetched page (at stride `limit`) is empty. -/
theorem c3_empty_page_termination :
    (∀ (σ : Type) (fetch : Nat → Page) (limit : Nat) (step : σ → Item → Except PyError σ)
        (fuel offset : Nat) (acc : σ),
      (fetch offset).items = [] →
      paginate fetch limit step (fuel + 1) offset acc = some (.ok acc, [offset])) ∧
    (∀ (σ : Type) (fetch : Nat → Page) (limit : Nat) (step : σ → Item → σ)
        (fuel offset : Nat) (acc : σ),
      (fetch offset).items ≠ [] →
      (fetch offset).items.length < limit →
      (fetch (offset + limit)).items = [] →
      paginate fetch limit (liftE step) (fuel + 2) offset acc =
        some (.ok ((fetch offset).items.foldl step acc), [offset, offset + limit])) ∧
    (∀ (σ : Type) (fetch fetch' : Nat → Page) (limit : Nat)
        (step : σ → Item → Except PyError σ),
      (∀ o, (fetch o).items = (fetch' o).items) →
      ∀ fuel offset acc,
        paginate fetch limit step fuel offset acc =
          paginate fetch' limit step fuel offset acc) ∧
    (∀ (σ : Type) (fetch : Nat → Page) (limit : Nat) (step : σ → Item → Except PyError σ)
        (k fuel offset : Nat) (acc : σ),
      (fetch (offset + limit * k)).items = [] → k < fuel →
      ∃ r, paginate fetch limit step fuel offset acc = some r) :=
  ⟨fun _ fetch limit step fuel offset acc h =>
      paginate_empty_stop fetch limit step fuel offset acc h,
   fun _ fetch limit step fuel offset acc hne _ hemp =>
      paginate_continue fetch limit step fuel offset acc hne hemp,
   fun _ fetch fetch' limit step hsame =>
      paginate_items_only fetch fetch' limit step hsame,
   fun _ fetch limit step k fuel offset acc h hk =>
      paginate_terminates fetch limit step k fuel offset acc h hk⟩

/-- Witness for C3: a pager whose first page holds a single item (shorter
than the page size 50) and whose second page is empty. -/
theorem c3_empty_page_termination_witness :
    paginate (fun _ => (⟨[], none, 7⟩ : Page)) 50 (liftE snocItem) 3 0 [] =
      some (.ok [], [0]) ∧
    paginate fetchShort 50 (liftE snocItem) 3 0 [] = some (.ok [trA], [0, 50]) ∧
    paginate fetchShort 50 (liftE snocItem) 3 0 [] =
      paginate (fun o => ⟨(fetchShort o).items, some "n".toList, 99⟩) 50 (liftE snocItem) 3 0 [] ∧
    (∃ r, paginate fetchShort 50 (liftE snocItem) 3 0 ([] : List Item) = some r) :=
  ⟨c3_empty_page_termination.1 (List Item) _ 50 (liftE snocItem) 2 0 [] (by decide),
   c3_empty_page_termination.2.1 (List Item) fetchShort 50 snocItem 1 0 [] (by decide)
      (by decide) (by decide),
   c3_empty_page_termination.2.2.1 (List Item) fetchShort _ 50 (liftE snocItem)
      (fun o => rfl) 3 0 [],
   c3_empty_page_termination.2.2.2 (List Item) fetchShort 50 (liftE snocItem) 1 3 0 []
      (by decide) (by decide)⟩

/-- C10 (implicit, from the code): after a non-empty page the loops advance
the offset by the full fixed page size, never by the number of items actually
returned — the offsets requested are exactly `offset + limit * i`.
Consequently, when the upstream short-pages (returns a non-empty page with
fewer than `limit` items), the positions between the end of that page and the
next offset are never requested: with ground truth A, B, C and a pager that
returns at most one item per page of size 2, the loop collects A and C only
and silently misses B. -/
theorem c10_offset_advances_by_limit :
    (∀ (σ : Type) (fetch : Nat → Page) (limit : Nat) (step : σ → Item → Except PyError σ)
        (fuel offset : Nat) (acc : σ) (r : Except PyError σ) (offs : List Nat),
      paginate fetch limit step fuel offset acc = some (r, offs) →
      ∀ i (hi : i < offs.length), offs.get ⟨i, hi⟩ = offset + limit * i) ∧
    (paginate fetchStride 2 (liftE snocItem) 4 0 [] = some (.ok [trA, trC], [0, 2, 4]) ∧
      trB ∈ targetABC ∧ trB ∉ [trA, trC]) :=
  ⟨fun _ fetch limit step fuel offset acc r offs h =>
      paginate_offsets fetch limit step fuel offset acc r offs h,
   rfl, by decide, by decide⟩

/-- Witness for C10 at the short-paging pager: the second request is issued at
offset 2 = 0 + 2·1, skipping position 1 where B sits. -/
theorem c10_offset_advances_by_limit_witness :
    [0, 2, 4].get ⟨1, by decide⟩ = 0 + 2 * 1 :=
  c10_offset_advances_by_limit.1 (List Item) fetchStride 2 (liftE snocItem) 4 0 []
    (.ok [trA, trC]) [0, 2, 4] rfl 1 (by decide)

/-! ## Batching lemmas -/

theorem batchesAux_flatten (ids : List PyStr) :
    ∀ fuel i, ids.length ≤ i + 100 * fuel → (batchesAux ids fuel i).flatten = ids.drop i := by
  intro fuel
  induction fuel with
  | zero =>
    intro i h
    simp only [batchesAux, List.flatten_nil]
    exact (List.drop_eq_nil_of_le (by omega)).symm
  | succ f ih =>
    intro i h
    by_cases hi : i < ids.length
    · simp only [batchesAux]
      rw [if_pos hi]
      rw [List.flatten_cons, ih (i + 100) (by omega)]
      exact List.drop_take_append_drop ids i 100
    · simp only [batchesAux]
      rw [if_neg hi]
      simp only [List.flatten_nil]
      exact (List.drop_eq_nil_of_le (by omega)).symm

theorem batchesAux_length (ids : List PyStr) :
    ∀ fuel i, ids.length ≤ i + 100 * fuel →
      (batchesAux ids fuel i).length = (ids.length - i + 99) / 100 := by
  intro fuel
  induction fuel with
  | zero =>
    intro i h
    simp only [batchesAux, List.length_nil]
    omega
  | succ f ih =>
    intro i h
    by_cases hi : i < ids.length
    · simp only [batchesAux]
      rw [if_pos hi]
      simp only [List.length_cons]
      rw [ih (i + 100) (by omega)]
      omega
    · simp only [batchesAux]
      rw [if_neg hi]
      simp only [List.length_nil]
      omega

theorem batchesAux_mem (ids : List PyStr) :
    ∀ fuel i b, b ∈ batchesAux ids fuel i → b ≠ [] ∧ b.length ≤ 100 := by
  intro fuel
  induction fuel with
  | zero => intro i b h; simp [batchesAux] at h
  | succ f ih =>
    intro i b h
    by_cases hi : i < ids.length
    · simp only [batchesAux] at h
      rw [if_pos hi] at h
      rcases List.mem_cons.mp h with rfl | h2
      · constructor
        · intro hnil
          have hlen := congrArg List.length hnil
          rw [List.length_take, List.length_drop] at hlen
          simp at hlen
          omega
        · rw [List.length_take]
          omega
      · exact ih (i + 100) b h2
    · simp only [batchesAux] at h
      rw [if_neg hi] at h
      simp at h

theorem batchesAux_ne_nil_imp (ids : List PyStr) :
    ∀ fuel i, batchesAux ids fuel i ≠ [] → i < ids.length := by
  intro fuel i h
  cases fuel with
  | zero => simp [batchesAux] at h
  | succ f =>
    by_cases hi : i < ids.length
    · exact hi
    · simp only [batchesAux] at h
      rw [if_neg hi] at h
      simp at h

theorem batchesAux_dropLast (ids : List PyStr) :
    ∀ fuel i, ids.length ≤ i + 100 * fuel →
      ∀ b ∈ (batchesAux ids fuel i).dropLast, b.length = 100 := by
  intro fuel
  induction fuel with
  | zero => intro i h b hb; simp [batchesAux] at hb
  | succ f ih =>
    intro i h b hb
    by_cases hi : i < ids.length
    · simp only [batchesAux] at hb
      rw [if_pos hi] at hb
      cases hf : batchesAux ids f (i + 100) with
      | nil => rw [hf] at hb; simp at hb
      | cons y ys =>
        rw [hf] at hb
        rw [List.dropLast_cons₂] at hb
        rcases List.mem_cons.mp hb with rfl | h2
        · have hlt : i + 100 < ids.length :=
            batchesAux_ne_nil_imp ids f (i + 100) (by rw [hf]; simp)
          rw [List.length_take, List.length_drop]
          omega
        · refine ih (i + 100) (by omega) b ?_
          rw [hf]
          exact h2
    · simp only [batchesAux] at hb
      rw [if_neg hi] at hb
      simp at hb

/-- C1: for a non-empty MatchList the Remover extracts the identifiers,
partitions them into consecutive batches of at most 100 in list order, and
issues exactly `⌈N / 100⌉ = (N + 99) / 100` removal calls, one per batch in
order; concatenating all batches reproduces the original identifier list, and
every batch but the last holds exactly 100 identifiers. -/
theorem c1_remover_batching (pid pname : PyStr) (tracks : List (PyStr × PyStr))
    (hne : tracks ≠ []) :
    (remover pid pname tracks).2 =
      (removeBatches (tracks.map Prod.fst)).map (fun b => ApiCall.removeBatch pid b) ∧
    (remover pid pname tracks).2.length = (tracks.length + 99) / 100 ∧
    (removeBatches (tracks.map Prod.fst)).flatten = tracks.map Prod.fst ∧
    (∀ b ∈ removeBatches (tracks.map Prod.fst), b ≠ [] ∧ b.length ≤ 100) ∧
    (∀ b ∈ (removeBatches (tracks.map Prod.fst)).dropLast, b.length = 100) := by
  have hmap : (tracks.map Prod.fst).length = tracks.length := List.length_map ..
  have htrace : (remover pid pname tracks).2 =
      (removeBatches (tracks.map Prod.fst)).map (fun b => ApiCall.removeBatch pid b) := by
    simp [remover, hne]
  refine ⟨htrace, ?_, ?_, ?_, ?_⟩
  · rw [htrace, List.length_map, removeBatches, batchesAux_length _ _ 0 (by omega)]
    omega
  · have := batchesAux_flatten (tracks.map Prod.fst) (tracks.map Prod.fst).length 0 (by omega)
    simpa [removeBatches] using this
  · intro b hb
    simp only [removeBatches] at hb
    exact batchesAux_mem _ _ _ b hb
  · intro b hb
    simp only [removeBatches] at hb
    exact batchesAux_dropLast _ _ 0 (by omega) b hb

/-- Witness for C1 at the 250-identifier scenario of the spec: exactly three
removal calls, with batch sizes 100, 100, 50 in that order. -/
theorem c1_remover_batching_witness :
    tracks250 ≠ [] ∧
    (removeBatches (tracks250.map Prod.fst)).map List.length = [100, 100, 50] ∧
    (remover "p".toList "N".toList tracks250).2.length = 3 :=
  ⟨by decide,
   by decide,
   by rw [(c1_remover_batching "p".toList "N".toList tracks250 (by decide)).2.1]; decide⟩

/-- C4: the web code (`run_filter`) skips an item whose track is missing or
whose identifier is null in every loop (first four conjuncts, covering the
filter-set steps and both matcher steps), exactly as the claim states.  The
CLI liked-songs loop, however, lacks the guard (src/clean_playlist.py line 66):
a page containing an item with a `null` track makes the collection raise
`TypeError` (fifth conjunct), and a track with a `null` identifier inserts
`null` into the filter set instead of being skipped (sixth conjunct) — the
code bug behind this claim. -/
theorem c4_null_track_skip :
    (∀ acc : Finset PyStr, filterStep acc ⟨none⟩ = acc) ∧
    (∀ (acc : Finset PyStr) (nm : PyStr), filterStep acc ⟨some ⟨none, nm⟩⟩ = acc) ∧
    (∀ (fs : Finset PyStr) (acc : List (PyStr × PyStr)), matchStep fs acc ⟨none⟩ = acc) ∧
    (∀ (fs : Finset PyStr) (acc : List (PyStr × PyStr)) (nm : PyStr),
      matchStep fs acc ⟨some ⟨none, nm⟩⟩ = acc) ∧
    (∀ (liked : Finset (Option PyStr)) (acc : List PyStr) (nm : PyStr),
      clpMatchStep liked acc ⟨some ⟨none, nm⟩⟩ = acc) ∧
    paginate (fun o => envNullTrack.saved 50 o) 50 clpLikedStep 5 0 ∅ =
      some (.error .typeError, [0]) ∧
    paginate (fun o => envNullId.saved 50 o) 50 clpLikedStep 5 0 ∅ =
      some (.ok (insert none ∅), [0, 50]) :=
  ⟨fun _ => rfl, fun _ _ => rfl, fun _ _ => rfl, fun _ _ _ => rfl, fun _ _ _ => rfl,
   rfl, rfl⟩

/-! ## Trace-shape lemmas for the collection stages -/

theorem likedCollect_calls (env : Env) (inc : Bool) (fuel : Nat)
    (r : Except PyError (Finset PyStr)) (tr : List ApiCall)
    (h : likedCollect env inc fuel = some (r, tr)) :
    ∀ c ∈ tr, ∃ o, c = .savedPage 50 o := by
  cases inc with
  | false =>
    simp [likedCollect] at h
    obtain ⟨h1, h2⟩ := h
    subst h2
    intro c hc
    simp at hc
  | true =>
    simp only [likedCollect, if_pos rfl] at h
    cases hp : paginate (fun o => env.saved 50 o) 50 (liftE filterStep) fuel 0 ∅ with
    | none => simp [hp] at h
    | some ro =>
      obtain ⟨r', offs⟩ := ro
      simp only [hp] at h
      have h2 : (offs.map fun o => ApiCall.savedPage 50 o) = tr :=
        congrArg Prod.snd (Option.some.inj h)
      subst h2
      intro c hc
      obtain ⟨o, _, rfl⟩ := List.mem_map.mp hc
      exact ⟨o, rfl⟩

theorem collectFilters_calls_sub (env : Env) (fuel : Nat) :
    ∀ (fids : List PyStr) (acc : Finset PyStr) (r : Except PyError (Finset PyStr))
      (tr : List ApiCall),
      collectFilters env fuel fids acc = some (r, tr) →
      ∀ c ∈ tr, (∃ pid ∈ fids, c = .meta pid) ∨
        (∃ pid ∈ fids, ∃ o, c = .itemsPage pid 100 o) := by
  intro fids
  induction fids with
  | nil =>
    intro acc r tr h c hc
    simp only [collectFilters] at h
    have h2 : ([] : List ApiCall) = tr := congrArg Prod.snd (Option.some.inj h)
    subst h2
    simp at hc
  | cons pid rest ih =>
    intro acc r tr h c hc
    simp only [collectFilters] at h
    by_cases hs : pid = likedSentinel
    · rw [if_pos hs] at h
      rcases ih acc r tr h c hc with ⟨p, hp, hc'⟩ | ⟨p, hp, o, hc'⟩
      · exact Or.inl ⟨p, List.mem_cons_of_mem _ hp, hc'⟩
      · exact Or.inr ⟨p, List.mem_cons_of_mem _ hp, o, hc'⟩
    · rw [if_neg hs] at h
      cases hm : env.playlistName pid with
      | error e =>
        simp only [hm] at h
        have h2 : [ApiCall.meta pid] = tr := congrArg Prod.snd (Option.some.inj h)
        subst h2
        simp only [List.mem_singleton] at hc
        subst hc
        exact Or.inl ⟨pid, by simp, rfl⟩
      | ok nm =>
        simp only [hm] at h
        cases hpag : paginate (fun o => env.playlistItems pid 100 o) 100
            (liftE filterStep) fuel 0 acc with
        | none => simp [hpag] at h
        | some ro =>
          obtain ⟨rr, offs⟩ := ro
          simp only [hpag] at h
          cases rr with
          | error e =>
            have h2 : (ApiCall.meta pid :: offs.map fun o => ApiCall.itemsPage pid 100 o)
                = tr := congrArg Prod.snd (Option.some.inj h)
            subst h2
            rcases List.mem_cons.mp hc with rfl | hc2
            · exact Or.inl ⟨pid, by simp, rfl⟩
            · obtain ⟨o, _, rfl⟩ := List.mem_map.mp hc2
              exact Or.inr ⟨pid, by simp, o, rfl⟩
          | ok acc' =>
            cases hrec : collectFilters env fuel rest acc' with
            | none => simp [hrec] at h
            | some rt =>
              obtain ⟨r', tr'⟩ := rt
              simp only [hrec] at h
              have h2 : ((ApiCall.meta pid :: offs.map fun o => ApiCall.itemsPage pid 100 o)
                  ++ tr') = tr := congrArg Prod.snd (Option.some.inj h)
              subst h2
              rcases List.mem_append.mp hc with hc1 | hc2
              · rcases List.mem_cons.mp hc1 with rfl | hc3
                · exact Or.inl ⟨pid, by simp, rfl⟩
                · obtain ⟨o, _, rfl⟩ := List.mem_map.mp hc3
                  exact Or.inr ⟨pid, by simp, o, rfl⟩
              · rcases ih acc' r' tr' hrec c hc2 with ⟨p, hp, hc'⟩ | ⟨p, hp, o, hc'⟩
                · exact Or.inl ⟨p, List.mem_cons_of_mem _ hp, hc'⟩
                · exact Or.inr ⟨p, List.mem_cons_of_mem _ hp, o, hc'⟩

/-- Counterexample for C7 as stated: in the CLI pipeline the liked-songs
library is paged BEFORE the target link is read, so an invalid target link is
reported only after collaborator network calls have already been made — here
two liked-songs page requests, so the trace is not empty. -/
theorem c7_invalid_link_counterexample :
    clean_playlist envLiked1 "a random string".toList 5 =
      some (.invalidLinkMsg, [.savedPage 50 0, .savedPage 50 50]) ∧
    ([ApiCall.savedPage 50 0, .savedPage 50 50] : List ApiCall) ≠ [] :=
  ⟨rfl, by decide⟩

/-- C7 (amended): in the web pipeline an unresolvable target link fails
immediately with the 400-equivalent result and an empty collaborator trace;
in the CLI pipeline the same failure is surfaced only after the liked-songs
paging, and its trace consists solely of liked-songs page calls — still no
metadata lookup, no target paging and no removal call. -/
theorem c7_invalid_link_behaviour :
    (∀ (env : Env) (fids : List PyStr) (liked : Bool) (fuel : Nat) (link : PyStr),
      get_playlist_id_from_link link = .ok none →
      run_filter env true link fids liked fuel = some (.invalidLink, [])) ∧
    (∀ (env : Env) (link : PyStr) (fuel : Nat) (s : Finset (Option PyStr))
        (offs : List Nat),
      paginate (fun o => env.saved 50 o) 50 clpLikedStep fuel 0 ∅ = some (.ok s, offs) →
      get_playlist_id_from_link_cli link = .ok none →
      clean_playlist env link fuel =
        some (.invalidLinkMsg, offs.map fun o => .savedPage 50 o)) := by
  constructor
  · intro env fids liked fuel link h
    simp [run_filter, h]
  · intro env link fuel s offs hp h
    simp [clean_playlist, hp, h]

/-- Witness for C7 (amended) at a malformed link. -/
theorem c7_invalid_link_behaviour_witness :
    run_filter envT true "garbage".toList [] false 3 = some (.invalidLink, []) ∧
    clean_playlist envLiked1 "garbage".toList 3 =
      some (.invalidLinkMsg, [0, 50].map fun o => .savedPage 50 o) :=
  ⟨c7_invalid_link_behaviour.1 envT [] false 3 "garbage".toList rfl,
   c7_invalid_link_behaviour.2 envLiked1 "garbage".toList 3
     (insert (some "a".toList) ∅) [0, 50] rfl rfl⟩

/-- Counterexample for C9 as stated: with a collaborator whose display-name
lookup fails for the filter playlist `fp`, the whole run aborts with a
500-equivalent error and `fp`'s tracks are never paged (no `itemsPage fp`
call appears in the trace) — collection is NOT continued. -/
theorem c9_name_failure_counterexample :
    run_filter envMetaFail true "spotify:playlist:tp".toList ["fp".toList] false 5 =
      some (.serverError .httpError, [.meta "tp".toList, .meta "fp".toList]) ∧
    (∀ o : Nat, ApiCall.itemsPage "fp".toList 100 o ∉
      [ApiCall.meta "tp".toList, ApiCall.meta "fp".toList]) :=
  ⟨rfl, by intro o; simp⟩

/-- C9 (amended): a failing display-name lookup for a filter playlist aborts
the run.  At the collection stage, after any successfully collected prefix of
the filter list, hitting a playlist whose name lookup raises stops the loop
with that exception and a single extra `meta` call — and if that playlist was
not already processed earlier, none of its tracks are ever fetched.  At the
run level the exception is caught by the outer handler and returned as a 500
server error. -/
theorem c9_name_failure_aborts :
    (∀ (env : Env) (fuel : Nat) (pre rest : List PyStr) (fpid : PyStr)
        (acc fsP : Finset PyStr) (trP : List ApiCall) (e : PyError),
      collectFilters env fuel pre acc = some (.ok fsP, trP) →
      fpid ≠ likedSentinel →
      env.playlistName fpid = .error e →
      collectFilters env fuel (pre ++ fpid :: rest) acc =
        some (.error e, trP ++ [.meta fpid]) ∧
      (fpid ∉ pre → ∀ o, ApiCall.itemsPage fpid 100 o ∉ trP ++ [.meta fpid])) ∧
    (∀ (env : Env) (link tp pname fpid : PyStr) (rest : List PyStr)
        (fuel : Nat) (e : PyError),
      get_playlist_id_from_link link = .ok (some tp) →
      env.playlistName tp = .ok pname →
      fpid ≠ likedSentinel →
      env.playlistName fpid = .error e →
      run_filter env true link (fpid :: rest) false fuel =
        some (.serverError e, [.meta tp, .meta fpid])) := by
  constructor
  · intro env fuel pre rest fpid acc fsP trP e h hsent hmeta
    constructor
    · induction pre generalizing acc trP fsP with
      | nil =>
        simp only [collectFilters] at h
        have hp := Option.some.inj h
        injection hp with h1 h2
        injection h1 with h1
        subst h1
        subst h2
        simp [collectFilters, hsent, hmeta]
      | cons p pre' ih =>
        simp only [collectFilters] at h
        by_cases hs : p = likedSentinel
        · rw [if_pos hs] at h
          have hgoal := ih acc fsP trP h
          simp only [List.cons_append, collectFilters, if_pos hs]
          exact hgoal
        · rw [if_neg hs] at h
          cases hm : env.playlistName p with
          | error e' => simp [hm] at h
          | ok nm =>
            simp only [hm] at h
            cases hpag : paginate (fun o => env.playlistItems p 100 o) 100
                (liftE filterStep) fuel 0 acc with
            | none => simp [hpag] at h
            | some ro =>
              obtain ⟨rr, offs⟩ := ro
              simp only [hpag] at h
              cases rr with
              | error e' => simp at h
              | ok acc' =>
                cases hrec : collectFilters env fuel pre' acc' with
                | none => simp [hrec] at h
                | some rt =>
                  obtain ⟨r', tr'⟩ := rt
                  simp only [hrec] at h
                  have hp := Option.some.inj h
                  injection hp with h1 h2
                  subst h2
                  have hrec' : collectFilters env fuel pre' acc' = some (.ok fsP, tr') := by
                    rw [hrec, h1]
                  have hgoal := ih acc' fsP tr' hrec'
                  rw [List.cons_append]
                  simp only [collectFilters, if_neg hs, hm, hpag]
                  rw [hgoal]
                  simp [List.append_assoc]
    · intro hnotin o hmem
      rcases List.mem_append.mp hmem with hmem | hmem
      · rcases collectFilters_calls_sub env fuel pre acc (.ok fsP) trP h _ hmem with
          ⟨p, _, hc⟩ | ⟨p, hp, o', hc⟩
        · cases hc
        · cases hc
          exact hnotin hp
      · simp at hmem
  · intro env link tp pname fpid rest fuel e hres hmeta hsent hfail
    simp [run_filter, hres, hmeta, likedCollect, collectFilters, hsent, hfail]

/-- Witness for C9 (amended): a collaborator whose name lookup fails for the
filter playlist `fp`. -/
theorem c9_name_failure_aborts_witness :
    run_filter envMetaFail true "spotify:playlist:tp".toList ["fp".toList] false 4 =
      some (.serverError .httpError, [.meta "tp".toList, .meta "fp".toList]) ∧
    (collectFilters envMetaFail 4 ([] ++ "fp".toList :: []) ∅ =
      some (.error .httpError, [] ++ [.meta "fp".toList])) :=
  ⟨c9_name_failure_aborts.2 envMetaFail "spotify:playlist:tp".toList "tp".toList
      "Target".toList "fp".toList [] 4 .httpError rfl rfl (by decide) rfl,
   (c9_name_failure_aborts.1 envMetaFail 4 [] [] "fp".toList ∅ ∅ [] .httpError rfl
      (by decide) rfl).1⟩

/-- Inversion of `run_filter`: a run whose outcome is neither an error nor the
invalid-link result went through every stage: link resolution, target
metadata, liked-songs collection, filter-playlist collection, matching, and
the remover, and its trace is the concatenation of the stages' calls. -/
theorem run_filter_reaches_remover (env : Env) (link : PyStr) (fids : List PyStr)
    (liked : Bool) (fuel : Nat) (res : RunResult) (tr : List ApiCall)
    (h : run_filter env true link fids liked fuel = some (res, tr))
    (hs : ∀ e, res ≠ .serverError e) (hinv : res ≠ .invalidLink) :
    ∃ tp pname fs1 trL fs trF tracks offs,
      get_playlist_id_from_link link = .ok (some tp) ∧
      env.playlistName tp = .ok pname ∧
      likedCollect env liked fuel = some (.ok fs1, trL) ∧
      collectFilters env fuel fids fs1 = some (.ok fs, trF) ∧
      paginate (fun o => env.playlistItems tp 100 o) 100 (liftE (matchStep fs)) fuel 0 []
        = some (.ok tracks, offs) ∧
      res = (remover tp pname tracks).1 ∧
      tr = .meta tp :: trL ++ trF ++ (offs.map fun o => .itemsPage tp 100 o)
        ++ (remover tp pname tracks).2 := by
  simp only [run_filter, Bool.not_true, Bool.false_eq_true, if_false] at h
  cases hres : get_playlist_id_from_link link with
  | error e =>
    simp only [hres] at h
    exact absurd (congrArg Prod.fst (Option.some.inj h)).symm (hs e)
  | ok opid =>
    cases opid with
    | none =>
      simp only [hres] at h
      exact absurd (congrArg Prod.fst (Option.some.inj h)).symm hinv
    | some tp =>
      simp only [hres] at h
      cases hmeta : env.playlistName tp with
      | error e =>
        simp only [hmeta] at h
        exact absurd (congrArg Prod.fst (Option.some.inj h)).symm (hs e)
      | ok pname =>
        simp only [hmeta] at h
        cases hlk : likedCollect env liked fuel with
        | none => simp [hlk] at h
        | some rl =>
          obtain ⟨rL, trL⟩ := rl
          cases rL with
          | error e =>
            simp only [hlk] at h
            exact absurd (congrArg Prod.fst (Option.some.inj h)).symm (hs e)
          | ok fs1 =>
            simp only [hlk] at h
            cases hcf : collectFilters env fuel fids fs1 with
            | none => simp [hcf] at h
            | some rc =>
              obtain ⟨rF, trF⟩ := rc
              cases rF with
              | error e =>
                simp only [hcf] at h
                exact absurd (congrArg Prod.fst (Option.some.inj h)).symm (hs e)
              | ok fs =>
                simp only [hcf] at h
                cases hpag : paginate (fun o => env.playlistItems tp 100 o) 100
                    (liftE (matchStep fs)) fuel 0 [] with
                | none => simp [hpag] at h
                | some rp =>
                  obtain ⟨rP, offs⟩ := rp
                  cases rP with
                  | error e =>
                    simp only [hpag] at h
                    exact absurd (congrArg Prod.fst (Option.some.inj h)).symm (hs e)
                  | ok tracks =>
                    simp only [hpag] at h
                    have hp := Option.some.inj h
                    injection hp with h1 h2
                    exact ⟨tp, pname, fs1, trL, fs, trF, tracks, offs, rfl, hmeta, rfl,
                      hcf, hpag, h1.symm, h2.symm⟩

/-- C6: an empty MatchList makes the Remover issue zero removal calls and
terminate successfully with the "no songs to remove" report.  Conjunct 1 is
the Remover itself; conjuncts 2 and 3 show that whenever the web or CLI
pipeline ends in that report, its whole collaborator trace contains no
`removeBatch` call at all — nothing was mutated. -/
theorem c6_empty_matchlist_no_removal :
    (∀ pid pname : PyStr, remover pid pname [] = (.noSongs pname, [])) ∧
    (∀ (env : Env) (link : PyStr) (fids : List PyStr) (liked : Bool) (fuel : Nat)
        (pname : PyStr) (tr : List ApiCall),
      run_filter env true link fids liked fuel = some (.noSongs pname, tr) →
      ∀ pid b, ApiCall.removeBatch pid b ∉ tr) ∧
    (∀ (env : Env) (link : PyStr) (fuel : Nat) (pname : PyStr) (tr : List ApiCall),
      clean_playlist env link fuel = some (.noLiked pname, tr) →
      ∀ pid b, ApiCall.removeBatch pid b ∉ tr) := by
  refine ⟨fun pid pname => rfl, ?_, ?_⟩
  · intro env link fids liked fuel pname tr h pid b hmem
    obtain ⟨tp, pn, fs1, trL, fs, trF, tracks, offs, _, _, hlk, hcf, _, hres, htr⟩ :=
      run_filter_reaches_remover env link fids liked fuel (.noSongs pname) tr h
        (fun e => by simp) (by simp)
    have htracks : tracks = [] := by
      by_cases ht : tracks = []
      · exact ht
      · simp [remover, ht] at hres
    subst htracks
    rw [htr] at hmem
    have hrm : (remover tp pn []).2 = [] := rfl
    rw [hrm, List.append_nil] at hmem
    rcases List.mem_cons.mp hmem with hc | hc
    · simp at hc
    · rcases List.mem_append.mp hc with hc2 | hc2
      · rcases List.mem_append.mp hc2 with hc3 | hc3
        · obtain ⟨o, ho⟩ := likedCollect_calls env liked fuel (.ok fs1) trL hlk _ hc3
          simp at ho
        · rcases collectFilters_calls_sub env fuel fids fs1 (.ok fs) trF hcf _ hc3 with
            ⟨p, _, hcx⟩ | ⟨p, _, o, hcx⟩
          · simp at hcx
          · simp at hcx
      · obtain ⟨o, _, hcx⟩ := List.mem_map.mp hc2
        simp at hcx
  · intro env link fuel pname tr h pid b hmem
    simp only [clean_playlist] at h
    cases hp : paginate (fun o => env.saved 50 o) 50 clpLikedStep fuel 0 ∅ with
    | none => simp [hp] at h
    | some rl =>
      obtain ⟨rL, offs⟩ := rl
      cases rL with
      | error e =>
        simp only [hp] at h
        have := congrArg Prod.fst (Option.some.inj h)
        simp at this
      | ok liked =>
        simp only [hp] at h
        cases hres2 : get_playlist_id_from_link_cli link with
        | error e =>
          simp only [hres2] at h
          have := congrArg Prod.fst (Option.some.inj h)
          simp at this
        | ok opid =>
          cases opid with
          | none =>
            simp only [hres2] at h
            have := congrArg Prod.fst (Option.some.inj h)
            simp at this
          | some pid2 =>
            simp only [hres2] at h
            cases hm : env.playlistName pid2 with
            | error e =>
              simp only [hm] at h
              have := congrArg Prod.fst (Option.some.inj h)
              simp at this
            | ok pn =>
              simp only [hm] at h
              cases hpag : paginate (fun o => env.playlistItems pid2 100 o) 100
                  (liftE (clpMatchStep liked)) fuel 0 [] with
              | none => simp [hpag] at h
              | some rp =>
                obtain ⟨rP, offs2⟩ := rp
                cases rP with
                | error e =>
                  simp only [hpag] at h
                  have := congrArg Prod.fst (Option.some.inj h)
                  simp at this
                | ok ids =>
                  simp only [hpag] at h
                  by_cases hids : ids = []
                  · rw [if_pos hids] at h
                    have hp2 := Option.some.inj h
                    injection hp2 with h1 h2
                    subst h2
                    simp at hmem
                  · rw [if_neg hids] at h
                    have := congrArg Prod.fst (Option.some.inj h)
                    simp at this

/-- Witness for C6: a run whose target playlist `zz` is empty ends in the
no-songs report with no removal call in the trace. -/
theorem c6_empty_matchlist_no_removal_witness :
    ∀ pid b, ApiCall.removeBatch pid b ∉
      [ApiCall.meta "zz".toList, .itemsPage "zz".toList 100 0] :=
  fun pid b =>
    c6_empty_matchlist_no_removal.2.1 envT "spotify:playlist:zz".toList [] false 3
      "Filt".toList [.meta "zz".toList, .itemsPage "zz".toList 100 0] rfl pid b

/-! ## Matcher characterisation lemmas -/

theorem paginate_liftE {σ : Type} (fetch : Nat → Page) (limit : Nat) (step : σ → Item → σ) :
    ∀ fuel offset acc,
      paginate fetch limit (liftE step) fuel offset acc =
        (pagCollect fetch limit fuel offset).map fun p => (.ok (p.1.foldl step acc), p.2) := by
  intro fuel
  induction fuel with
  | zero => intro o acc; rfl
  | succ f ih =>
    intro o acc
    simp only [paginate, pagCollect]
    by_cases h0 : (fetch o).items = []
    · rw [if_pos h0, if_pos h0]
      simp
    · rw [if_neg h0, if_neg h0]
      simp only [foldE_liftE]
      rw [ih]
      cases pagCollect fetch limit f (o + limit) with
      | none => rfl
      | some p =>
        obtain ⟨its, offs⟩ := p
        simp [List.foldl_append]

theorem matchStep_eq (fs : Finset PyStr) (acc : List (PyStr × PyStr)) (it : Item) :
    matchStep fs acc it = acc ++ (matchFn fs it).toList := by
  obtain ⟨tk⟩ := it
  cases tk with
  | none => simp [matchStep, matchFn]
  | some t =>
    obtain ⟨tid, nm⟩ := t
    cases tid with
    | none => simp [matchStep, matchFn]
    | some i =>
      by_cases hi : i = []
      · simp [matchStep, matchFn, hi]
      · by_cases hm : i ∈ fs
        · simp [matchStep, matchFn, hi, hm]
        · simp [matchStep, matchFn, hi, hm]

theorem foldl_matchStep (fs : Finset PyStr) :
    ∀ (l : List Item) (acc : List (PyStr × PyStr)),
      l.foldl (matchStep fs) acc = acc ++ l.filterMap (matchFn fs) := by
  intro l
  induction l with
  | nil => intro acc; simp
  | cons it l ih =>
    intro acc
    rw [List.foldl_cons, ih, matchStep_eq, List.filterMap_cons]
    cases matchFn fs it with
    | none => simp
    | some b => simp

/-- C2: whenever the web run succeeds, the MatchList is exactly the
per-occurrence filter of the collected target items — one `{id, name}` entry
for every occurrence of a target track whose (non-empty) identifier is in the
filter set, in target-playlist order — and the report's removed count is the
number of MatchList entries while its removed-names list is exactly the
MatchList names in that order (HTML-escaped for display, one name per
occurrence). -/
theorem c2_matcher_and_report (env : Env) (link : PyStr) (fids : List PyStr)
    (liked : Bool) (fuel : Nat) (c : Nat) (pname : PyStr) (names : List PyStr)
    (tr : List ApiCall)
    (h : run_filter env true link fids liked fuel = some (.success c pname names, tr)) :
    ∃ tp fs1 trL fs trF its offs,
      get_playlist_id_from_link link = .ok (some tp) ∧
      likedCollect env liked fuel = some (.ok fs1, trL) ∧
      collectFilters env fuel fids fs1 = some (.ok fs, trF) ∧
      pagCollect (fun o => env.playlistItems tp 100 o) 100 fuel 0 = some (its, offs) ∧
      its.filterMap (matchFn fs) ≠ [] ∧
      c = (its.filterMap (matchFn fs)).length ∧
      names = (its.filterMap (matchFn fs)).map fun t => escapeHtml t.2 := by
  obtain ⟨tp, pn, fs1, trL, fs, trF, tracks, offs, hres, hmeta, hlk, hcf, hpag, hrm, htr⟩ :=
    run_filter_reaches_remover env link fids liked fuel (.success c pname names) tr h
      (fun e => by simp) (by simp)
  rw [paginate_liftE] at hpag
  cases hpc : pagCollect (fun o => env.playlistItems tp 100 o) 100 fuel 0 with
  | none => rw [hpc] at hpag; simp at hpag
  | some p =>
    obtain ⟨its, offs'⟩ := p
    rw [hpc] at hpag
    simp only [Option.map_some'] at hpag
    have hp2 := Option.some.inj hpag
    injection hp2 with h1 h2
    injection h1 with h1
    subst h2
    have htracks : its.filterMap (matchFn fs) = tracks := by
      rw [← h1, foldl_matchStep]
      simp
    have hne : tracks ≠ [] := by
      intro hnil
      rw [hnil] at hrm
      simp [remover] at hrm
    have hrm2 : RunResult.success c pname names =
        .success tracks.length pn (tracks.map fun t => escapeHtml t.2) := by
      rw [hrm]
      simp [remover, hne]
    injection hrm2 with hc hpn hnames
    refine ⟨tp, fs1, trL, fs, trF, its, offs', hres, hlk, hcf, hpc, ?_, ?_, ?_⟩
    · rw [htracks]; exact hne
    · rw [htracks]; exact hc
    · rw [htracks]; exact hnames

/-- Witness for C2 at the spec's scenario: target [A, B, C], filter set from a
playlist holding B; the run succeeds removing exactly one occurrence named
Beta. -/
theorem c2_matcher_and_report_witness :
    ∃ tp fs1 trL fs trF its offs,
      get_playlist_id_from_link "spotify:playlist:tp".toList = .ok (some tp) ∧
      likedCollect envT false 5 = some (.ok fs1, trL) ∧
      collectFilters envT 5 ["fp".toList] fs1 = some (.ok fs, trF) ∧
      pagCollect (fun o => envT.playlistItems tp 100 o) 100 5 0 = some (its, offs) ∧
      its.filterMap (matchFn fs) ≠ [] ∧
      1 = (its.filterMap (matchFn fs)).length ∧
      ["Beta".toList] = (its.filterMap (matchFn fs)).map fun t => escapeHtml t.2 :=
  c2_matcher_and_report envT "spotify:playlist:tp".toList ["fp".toList] false 5 1
    "Target".toList ["Beta".toList]
    [.meta "tp".toList, .meta "fp".toList, .itemsPage "fp".toList 100 0,
     .itemsPage "fp".toList 100 100, .itemsPage "tp".toList 100 0,
     .itemsPage "tp".toList 100 100, .removeBatch "tp".toList ["b".toList]] rfl

/-! ## Slicing-pager and removal-semantics lemmas (for idempotence) -/

theorem pagCollect_slice_items (l : List Item) (L : Nat) (hL : 0 < L) :
    ∀ fuel o its offs,
      pagCollect (fun o2 => slicePage l L o2) L fuel o = some (its, offs) →
      its = l.drop o := by
  intro fuel
  induction fuel with
  | zero => intro o its offs h; simp [pagCollect] at h
  | succ f ih =>
    intro o its offs h
    simp only [pagCollect] at h
    by_cases h0 : (slicePage l L o).items = []
    · rw [if_pos h0] at h
      have hp := Option.some.inj h
      injection hp with h1 h2
      have hdrop : l.drop o = [] := by
        simp only [slicePage] at h0
        rcases List.take_eq_nil_iff.mp h0 with hL0 | hd
        · omega
        · exact hd
      rw [← h1, hdrop]
    · rw [if_neg h0] at h
      cases hrec : pagCollect (fun o2 => slicePage l L o2) L f (o + L) with
      | none => rw [hrec] at h; simp at h
      | some p =>
        obtain ⟨its', offs'⟩ := p
        simp only [hrec] at h
        have hits' := ih (o + L) its' offs' hrec
        have hp := Option.some.inj h
        injection hp with h1 h2
        rw [← h1, hits']
        exact List.drop_take_append_drop l o L

theorem pagCollect_isSome_bound (l : List Item) (L : Nat) (hL : 0 < L) :
    ∀ fuel o x, pagCollect (fun o2 => slicePage l L o2) L fuel o = some x →
      ∃ i, i < fuel ∧ l.length ≤ o + L * i := by
  intro fuel
  induction fuel with
  | zero => intro o x h; simp [pagCollect] at h
  | succ f ih =>
    intro o x h
    simp only [pagCollect] at h
    by_cases h0 : (slicePage l L o).items = []
    · refine ⟨0, by omega, ?_⟩
      simp only [slicePage] at h0
      rcases List.take_eq_nil_iff.mp h0 with hL0 | hd
      · omega
      · have := List.drop_eq_nil_iff.mp hd
        omega
    · rw [if_neg h0] at h
      cases hrec : pagCollect (fun o2 => slicePage l L o2) L f (o + L) with
      | none => rw [hrec] at h; simp at h
      | some p =>
        obtain ⟨i, hif, hlen⟩ := ih (o + L) p hrec
        refine ⟨i + 1, by omega, ?_⟩
        have he : o + L + L * i = o + L * (i + 1) := by rw [Nat.mul_succ]; ring
        rw [← he]
        exact hlen

theorem pagCollect_slice_of_bound (l : List Item) (L : Nat) (hL : 0 < L) :
    ∀ fuel o i, l.length ≤ o + L * i → i < fuel →
      ∃ offs, pagCollect (fun o2 => slicePage l L o2) L fuel o = some (l.drop o, offs) := by
  intro fuel
  induction fuel with
  | zero => intro o i h hk; omega
  | succ f ih =>
    intro o i h hk
    by_cases h0 : l.length ≤ o
    · refine ⟨[o], ?_⟩
      have hnil : (slicePage l L o).items = [] := by
        simp [slicePage, List.drop_eq_nil_of_le h0]
      simp only [pagCollect]
      rw [if_pos hnil, List.drop_eq_nil_of_le h0]
    · have hne : (slicePage l L o).items ≠ [] := by
        simp only [slicePage]
        intro hcontra
        rcases List.take_eq_nil_iff.mp hcontra with hL0 | hd
        · omega
        · exact h0 (List.drop_eq_nil_iff.mp hd)
      have hi : i ≠ 0 := by
        intro h0'
        subst h0'
        simp only [Nat.mul_zero, Nat.add_zero] at h
        omega
      obtain ⟨i', rfl⟩ : ∃ i', i = i' + 1 := ⟨i - 1, by omega⟩
      have hbound : l.length ≤ (o + L) + L * i' := by
        have he : o + L + L * i' = o + L * (i' + 1) := by rw [Nat.mul_succ]; ring
        rw [he]
        exact h
      obtain ⟨offs', hrec⟩ := ih (o + L) i' hbound (by omega)
      refine ⟨o :: offs', ?_⟩
      simp only [pagCollect]
      rw [if_neg hne, hrec]
      simp [slicePage, List.drop_take_append_drop]

theorem mem_removeAll {x : Item} {l : List Item} {ids : List PyStr} :
    x ∈ removeAll l ids ↔ x ∈ l ∧
      (∀ t tid, x.track = some t → t.id = some tid → tid ∉ ids) := by
  simp only [removeAll, List.mem_filter]
  constructor
  · rintro ⟨hx, hcond⟩
    refine ⟨hx, ?_⟩
    intro t tid ht htid hin
    simp only [ht, htid] at hcond
    simp [hin] at hcond
  · rintro ⟨hx, hcond⟩
    refine ⟨hx, ?_⟩
    cases hxt : x.track with
    | none => simp [hxt]
    | some t =>
      cases htid : t.id with
      | none => simp [hxt, htid]
      | some tid =>
        have hn := hcond t tid hxt htid
        simp [hxt, htid, hn]

theorem applyBatches_length_le : ∀ (bs : List (List PyStr)) (l : List Item),
    (applyBatches l bs).length ≤ l.length := by
  intro bs
  induction bs with
  | nil => intro l; simp [applyBatches]
  | cons b bs ih =>
    intro l
    have h1 : applyBatches l (b :: bs) = applyBatches (removeAll l b) bs := rfl
    rw [h1]
    exact le_trans (ih (removeAll l b)) (List.length_filter_le _ l)

theorem mem_applyBatches {x : Item} : ∀ (bs : List (List PyStr)) (l : List Item),
    x ∈ applyBatches l bs →
    x ∈ l ∧ ∀ b ∈ bs, ∀ t tid, x.track = some t → t.id = some tid → tid ∉ b := by
  intro bs
  induction bs with
  | nil =>
    intro l h
    exact ⟨by simpa [applyBatches] using h, by simp⟩
  | cons b bs ih =>
    intro l h
    have h1 : applyBatches l (b :: bs) = applyBatches (removeAll l b) bs := rfl
    rw [h1] at h
    obtain ⟨hx, hall⟩ := ih (removeAll l b) h
    obtain ⟨hx2, hcond⟩ := mem_removeAll.mp hx
    refine ⟨hx2, ?_⟩
    intro b' hb'
    rcases List.mem_cons.mp hb' with rfl | hb2
    · exact hcond
    · exact hall b' hb2

theorem applyCalls_append (tp : PyStr) : ∀ (xs ys : List ApiCall) (l : List Item),
    applyCalls tp l (xs ++ ys) = applyCalls tp (applyCalls tp l xs) ys := by
  intro xs
  induction xs with
  | nil => intro ys l; rfl
  | cons x xs ih =>
    intro ys l
    cases x with
    | removeBatch pid ids =>
      simp only [List.cons_append, applyCalls, List.append_eq]
      rw [ih]
    | meta pid =>
      simp only [List.cons_append, applyCalls, List.append_eq]
      rw [ih]
    | savedPage a b =>
      simp only [List.cons_append, applyCalls, List.append_eq]
      rw [ih]
    | itemsPage p a b =>
      simp only [List.cons_append, applyCalls, List.append_eq]
      rw [ih]

theorem applyCalls_no_remove (tp : PyStr) : ∀ (xs : List ApiCall) (l : List Item),
    (∀ pid ids, ApiCall.removeBatch pid ids ∉ xs) → applyCalls tp l xs = l := by
  intro xs
  induction xs with
  | nil => intro l _; rfl
  | cons x xs ih =>
    intro l h
    cases x with
    | removeBatch pid ids => exact absurd (List.mem_cons_self _ _) (h pid ids)
    | meta pid =>
      simp only [applyCalls]
      exact ih l fun p i hm => h p i (List.mem_cons_of_mem _ hm)
    | savedPage a b =>
      simp only [applyCalls]
      exact ih l fun p i hm => h p i (List.mem_cons_of_mem _ hm)
    | itemsPage p a b =>
      simp only [applyCalls]
      exact ih l fun p i hm => h p i (List.mem_cons_of_mem _ hm)

theorem applyCalls_batches (tp : PyStr) : ∀ (bs : List (List PyStr)) (l : List Item),
    applyCalls tp l (bs.map fun b => ApiCall.removeBatch tp b) = applyBatches l bs := by
  intro bs
  induction bs with
  | nil => intro l; rfl
  | cons b bs ih =>
    intro l
    simp only [List.map_cons, applyCalls, if_pos rfl]
    rw [ih]
    rfl

theorem collectFilters_setTarget (env : Env) (tp : PyStr) (l : List Item) (fuel : Nat) :
    ∀ (fids : List PyStr) (acc : Finset PyStr), tp ∉ fids →
      collectFilters (setTargetItems env tp l) fuel fids acc =
        collectFilters env fuel fids acc := by
  intro fids
  induction fids with
  | nil => intro acc _; rfl
  | cons pid rest ih =>
    intro acc h
    have hpid : pid ≠ tp := fun he => h (he ▸ List.mem_cons_self ..)
    have hrest : tp ∉ rest := fun hm => h (List.mem_cons_of_mem _ hm)
    simp only [collectFilters]
    have hname : (setTargetItems env tp l).playlistName = env.playlistName := rfl
    have hfetch : (fun o => (setTargetItems env tp l).playlistItems pid 100 o) =
        fun o => env.playlistItems pid 100 o := by
      funext o
      simp [setTargetItems, hpid]
    rw [hname, hfetch]
    by_cases hs : pid = likedSentinel
    · rw [if_pos hs, if_pos hs]
      exact ih acc hrest
    · rw [if_neg hs, if_neg hs]
      cases hm : env.playlistName pid with
      | error e => rfl
      | ok nm =>
        cases hpag : paginate (fun o => env.playlistItems pid 100 o) 100 (liftE filterStep)
            fuel 0 acc with
        | none => rfl
        | some ro =>
          obtain ⟨rr, offs⟩ := ro
          cases rr with
          | error e => rfl
          | ok acc' =>
            dsimp only
            rw [ih acc' hrest]

/-- C8: running the pipeline twice on the same target with an unchanged
filter set yields "no songs to remove" on the second run.  The first run's
removal calls are replayed against the target's item list with the upstream
remove-all-occurrences semantics (`applyCalls`); rebinding the target to the
resulting list and re-running the pipeline with the same inputs (the target
not among the filter sources) ends in the no-songs report. -/
theorem c8_pipeline_idempotent (env : Env) (T : List Item) (tp link : PyStr)
    (fids : List PyStr) (liked : Bool) (fuel : Nat) (c : Nat) (pname : PyStr)
    (names : List PyStr) (tr : List ApiCall)
    (henv : ∀ limit offset, env.playlistItems tp limit offset = slicePage T limit offset)
    (hres0 : get_playlist_id_from_link link = .ok (some tp))
    (hfid : tp ∉ fids)
    (h : run_filter env true link fids liked fuel = some (.success c pname names, tr)) :
    ∃ tr2, run_filter (setTargetItems env tp (applyCalls tp T tr)) true link fids liked fuel
      = some (.noSongs pname, tr2) := by
  obtain ⟨tp', pn, fs1, trL, fs, trF, tracks, offs, hres, hmeta, hlk, hcf, hpag, hrm, htr⟩ :=
    run_filter_reaches_remover env link fids liked fuel (.success c pname names) tr h
      (fun e => by simp) (by simp)
  have htp : tp' = tp := by
    rw [hres0] at hres
    exact (Option.some.inj (Except.ok.inj hres)).symm
  subst tp'
  have hfeq : (fun o => env.playlistItems tp 100 o) = fun o2 => slicePage T 100 o2 :=
    funext fun o => henv 100 o
  rw [hfeq, paginate_liftE] at hpag
  cases hpc : pagCollect (fun o2 => slicePage T 100 o2) 100 fuel 0 with
  | none => rw [hpc] at hpag; simp at hpag
  | some p =>
    obtain ⟨its, offs'⟩ := p
    rw [hpc] at hpag
    simp only [Option.map_some'] at hpag
    have hp2 := Option.some.inj hpag
    injection hp2 with h1 h2
    injection h1 with h1
    subst h2
    have hitsT : its = T := by
      have := pagCollect_slice_items T 100 (by omega) fuel 0 its offs' hpc
      simpa using this
    subst its
    have htracks : tracks = T.filterMap (matchFn fs) := by
      rw [← h1, foldl_matchStep]
      simp
    have hne : tracks ≠ [] := by
      intro hnil
      rw [hnil] at hrm
      simp [remover] at hrm
    have hrm' := hrm
    simp only [remover, if_neg hne, RunResult.success.injEq] at hrm'
    have hpn : pname = pn := hrm'.2.1
    have hrm2 : (remover tp pn tracks).2 =
        (removeBatches (tracks.map Prod.fst)).map fun b => ApiCall.removeBatch tp b := by
      simp [remover, hne]
    have hnorem : ∀ pid ids, ApiCall.removeBatch pid ids ∉
        (trL ++ trF ++ (offs'.map fun o => ApiCall.itemsPage tp 100 o)) := by
      intro pid ids hmem
      rcases List.mem_append.mp hmem with hmem | hmem
      · rcases List.mem_append.mp hmem with hmem | hmem
        · obtain ⟨o, ho⟩ := likedCollect_calls env liked fuel (.ok fs1) trL hlk _ hmem
          simp at ho
        · rcases collectFilters_calls_sub env fuel fids fs1 (.ok fs) trF hcf _ hmem with
            ⟨q, _, hcx⟩ | ⟨q, _, o, hcx⟩ <;> simp at hcx
      · obtain ⟨o, _, hcx⟩ := List.mem_map.mp hmem
        simp at hcx
    have hT' : applyCalls tp T tr =
        applyBatches T (removeBatches (tracks.map Prod.fst)) := by
      have step1 : applyCalls tp T tr =
          applyCalls tp T ((trL ++ trF ++ (offs'.map fun o => ApiCall.itemsPage tp 100 o))
            ++ (remover tp pn tracks).2) := by
        rw [htr]
        rfl
      rw [step1, applyCalls_append, applyCalls_no_remove tp _ T hnorem, hrm2,
        applyCalls_batches]
    have hT'len : (applyBatches T (removeBatches (tracks.map Prod.fst))).length ≤ T.length :=
      applyBatches_length_le _ T
    obtain ⟨i, hif, hbound⟩ := pagCollect_isSome_bound T 100 (by omega) fuel 0 _ hpc
    obtain ⟨offs2, hpc2⟩ := pagCollect_slice_of_bound
      (applyBatches T (removeBatches (tracks.map Prod.fst))) 100 (by omega) fuel 0 i
      (le_trans hT'len hbound) hif
    rw [List.drop_zero] at hpc2
    have hempty : (applyBatches T (removeBatches (tracks.map Prod.fst))).filterMap
        (matchFn fs) = [] := by
      rw [List.filterMap_eq_nil_iff]
      intro x hx
      cases hmf : matchFn fs x with
      | none => rfl
      | some pr =>
        exfalso
        obtain ⟨hxT, hkeep⟩ := mem_applyBatches _ T hx
        obtain ⟨tk⟩ := x
        cases tk with
        | none => simp [matchFn] at hmf
        | some t =>
          obtain ⟨oid, nm2⟩ := t
          cases oid with
          | none => simp [matchFn] at hmf
          | some tid =>
            by_cases hi : tid = []
            · simp [matchFn, hi] at hmf
            · by_cases hmem2 : tid ∈ fs
              · have hintracks : (tid, nm2) ∈ tracks := by
                  rw [htracks]
                  exact List.mem_filterMap.mpr
                    ⟨⟨some ⟨some tid, nm2⟩⟩, hxT, by simp [matchFn, hi, hmem2]⟩
                have hinids : tid ∈ tracks.map Prod.fst :=
                  List.mem_map.mpr ⟨(tid, nm2), hintracks, rfl⟩
                have hinflat : tid ∈ (removeBatches (tracks.map Prod.fst)).flatten := by
                  have hflat := batchesAux_flatten (tracks.map Prod.fst)
                    (tracks.map Prod.fst).length 0 (by omega)
                  simp only [removeBatches]
                  rw [hflat]
                  simpa using hinids
                obtain ⟨b, hb, htidb⟩ := List.mem_flatten.mp hinflat
                exact hkeep b hb ⟨some tid, nm2⟩ tid rfl rfl htidb
              · simp [matchFn, hi, hmem2] at hmf
    have hmeta2 : (setTargetItems env tp (applyCalls tp T tr)).playlistName tp = .ok pn :=
      hmeta
    have hlk2 : likedCollect (setTargetItems env tp (applyCalls tp T tr)) liked fuel =
        some (.ok fs1, trL) := hlk
    have hcf2 : collectFilters (setTargetItems env tp (applyCalls tp T tr)) fuel fids fs1 =
        some (.ok fs, trF) := by
      rw [collectFilters_setTarget env tp _ fuel fids fs1 hfid]
      exact hcf
    have hfeq2 : (fun o => (setTargetItems env tp (applyCalls tp T tr)).playlistItems
          tp 100 o) =
        fun o2 => slicePage (applyBatches T (removeBatches (tracks.map Prod.fst))) 100 o2 := by
      funext o
      simp [setTargetItems, hT']
    have hpag2 : paginate (fun o => (setTargetItems env tp
          (applyCalls tp T tr)).playlistItems tp 100 o) 100 (liftE (matchStep fs))
          fuel 0 [] = some (.ok ([] : List (PyStr × PyStr)), offs2) := by
      rw [hfeq2, paginate_liftE, hpc2]
      simp only [Option.map_some']
      rw [foldl_matchStep]
      simp [hempty]
    refine ⟨ApiCall.meta tp :: trL ++ trF ++
      (offs2.map fun o => ApiCall.itemsPage tp 100 o) ++ [], ?_⟩
    rw [hpn]
    simp only [run_filter, hres0, hmeta2, hlk2, hcf2, hpag2]
    simp [remover]

/-- Witness for C8: after the successful first run on target A, B, C with
filter playlist holding B, replaying the run's removal calls against the
target and re-running the pipeline yields the no-songs report. -/
theorem c8_pipeline_idempotent_witness :
    ∃ tr2, run_filter (setTargetItems envT "tp".toList (applyCalls "tp".toList targetABC
      [.meta "tp".toList, .meta "fp".toList, .itemsPage "fp".toList 100 0,
       .itemsPage "fp".toList 100 100, .itemsPage "tp".toList 100 0,
       .itemsPage "tp".toList 100 100, .removeBatch "tp".toList ["b".toList]]))
      true "spotify:playlist:tp".toList ["fp".toList] false 5
      = some (.noSongs "Target".toList, tr2) :=
  c8_pipeline_idempotent envT targetABC "tp".toList "spotify:playlist:tp".toList
    ["fp".toList] false 5 1 "Target".toList ["Beta".toList]
    [.meta "tp".toList, .meta "fp".toList, .itemsPage "fp".toList 100 0,
     .itemsPage "fp".toList 100 100, .itemsPage "tp".toList 100 0,
     .itemsPage "tp".toList 100 100, .removeBatch "tp".toList ["b".toList]]
    (fun _ _ => rfl) rfl (by decide) rfl
